import Mathlib

/-!
Verification of the word-suggestion engine in `src/main.c` (Trie-Word-Suggester).

The C program is embedded shallowly:

* C strings are lists of byte values (`List Nat`); `tolower` and `isalpha`
  are modelled on byte values exactly as the C library behaves on the
  ASCII inputs the program restricts itself to.
* `levenshteinDistance` is the two-row dynamic program of the source,
  rendered as a row-by-row fold; the C ternary chain that selects the
  minimum of the three candidate costs is kept literally (`levCell`).
* The trie (`TrieNode`), `insertWord`, `collectSuggestions`,
  `searchWordsByPrefix` (here `searchWords`, since the original name is
  not usable in this development), `collectAllWords`,
  `addSuggestion`, `compareSuggestions` and `suggestSimilarWords` are
  direct functional renderings of the corresponding C functions.
* `qsort` with `compareSuggestions` is modelled as `List.mergeSort` over
  the comparator's order; the C standard leaves the order of
  comparator-equal elements unspecified, and no theorem below depends
  on it.

Specification-side definitions (clearly marked) follow the wording of
`spec.md`: `EditsTo` is the cost of an edit script made of
single-character insertions, deletions and substitutions, used to state
that the dynamic program computes the least such cost.
-/

/-! ## Bytes, case folding, validation (`toLowerCase`, `strtolower`, `isValidWord`) -/

/-- `tolower` on a byte, as the C library behaves on ASCII input. -/
def tolowerB (c : Nat) : Nat := if 65 ≤ c ∧ c ≤ 90 then c + 32 else c

/-- `strtolower` from the source: lowercase copy of a string. -/
def strtolower (w : List Nat) : List Nat := w.map tolowerB

/-- `isalpha` on a byte (ASCII). -/
def isalphaB (c : Nat) : Bool := (65 ≤ c && c ≤ 90) || (97 ≤ c && c ≤ 122)

/-- `isValidWord` from the source: every character is a letter.  The CLI
additionally rejects empty input before it ever calls `insertWord`, so the
stores considered below are built from nonempty valid words. -/
def isValidWord (w : List Nat) : Bool := w.all isalphaB

/-- Byte values of a Lean string literal, for concrete test inputs. -/
def bytesOf (s : String) : List Nat := s.data.map Char.toNat

/-! ## `levenshteinDistance` (source embedding)

The C function allocates two rows `prev`/`curr` of length `|t|+1`,
initialises `prev[j] = j`, and for each character of `s` fills `curr`
left to right from `prev`, finally returning `prev[|t|]`.  `levCell` is
the literal ternary chain of the source; `levRowGo` fills one row. -/

/-- The ternary chain of the source computing one cell from `prev[j]`
(`pv`), `curr[j-1]` (`left`), `prev[j-1]` (`diag`) and the substitution
cost. -/
def levCell (pv left diag cost : Nat) : Nat :=
  if pv + 1 < left + 1 then
    (if pv + 1 < diag + cost then pv + 1 else diag + cost)
  else
    (if left + 1 < diag + cost then left + 1 else diag + cost)

/-- Fill the remainder of a row: `ts` are the unprocessed characters of
`t`, `diag` is `prev[j-1]`, `pvs` are `prev[j], prev[j+1], …`, and
`left` is the cell just written. -/
def levRowGo (a : Nat) : List Nat → Nat → List Nat → Nat → List Nat
  | [], _, _, _ => []
  | _ :: _, _, [], _ => []
  | tc :: ts, diag, pv :: pvs, left =>
    let cost : Nat := if a = tc then 0 else 1
    let c := levCell pv left diag cost
    c :: levRowGo a ts pv pvs c

/-- One iteration of the outer loop: produce `curr` from `prev`
(`curr[0] = i = prev[0] + 1`). -/
def levRow (a : Nat) (t : List Nat) (prev : List Nat) : List Nat :=
  match prev with
  | [] => []
  | p0 :: rest => (p0 + 1) :: levRowGo a t p0 rest (p0 + 1)

/-- `levenshteinDistance` from the source (the pure computation, i.e. the
path on which both row allocations succeed). -/
def levenshteinDistance (s t : List Nat) : Nat :=
  (s.foldl (fun prev a => levRow a t prev) (List.range (t.length + 1))).getD t.length 0

/-- `INT_MAX` on the 32-bit `int` of the reference platform. -/
def INT_MAX : Int := 2147483647

/-- `levenshteinDistance` including its allocation-failure path: the C
function returns `INT_MAX` when it cannot allocate `prev`/`curr`
(`allocOk = false`), and the DP result otherwise.  Allocation success is
made an explicit parameter. -/
def levenshteinDistanceC (allocOk : Bool) (s t : List Nat) : Int :=
  if allocOk then (levenshteinDistance s t : Int) else INT_MAX

/-! ## Edit scripts (specification side)

Modelled from the spec: "the minimum-cost sequence of single-character
insertions, deletions, and substitutions (each cost 1) transforming `a`
into `b`".  `EditsTo a b n` holds when some such sequence of total cost
`n` transforms `a` into `b`; the script is read off the derivation,
working from the right end of both strings. -/

/-- Cost-indexed edit scripts: `EditsTo a b n` iff `a` can be transformed
into `b` by single-character insertions, deletions and substitutions of
total cost `n` (matched characters cost nothing). -/
inductive EditsTo : List Nat → List Nat → Nat → Prop where
  | nil : EditsTo [] [] 0
  | copy (u v : List Nat) (a : Nat) (n : Nat) :
      EditsTo u v n → EditsTo (u ++ [a]) (v ++ [a]) n
  | subst (u v : List Nat) (a b : Nat) (n : Nat) :
      EditsTo u v n → EditsTo (u ++ [a]) (v ++ [b]) (n + 1)
  | del (u v : List Nat) (a : Nat) (n : Nat) :
      EditsTo u v n → EditsTo (u ++ [a]) v (n + 1)
  | ins (u v : List Nat) (b : Nat) (n : Nat) :
      EditsTo u v n → EditsTo u (v ++ [b]) (n + 1)

theorem editsTo_nil_right : ∀ u : List Nat, EditsTo u [] u.length := by
  intro u
  induction u using List.reverseRecOn with
  | nil => exact EditsTo.nil
  | append_singleton u a ih => simpa using EditsTo.del u [] a u.length ih

theorem editsTo_nil_left : ∀ v : List Nat, EditsTo [] v v.length := by
  intro v
  induction v using List.reverseRecOn with
  | nil => exact EditsTo.nil
  | append_singleton v b ih => simpa using EditsTo.ins [] v b v.length ih

theorem editsTo_nil_left_le {v : List Nat} {n : Nat}
    (h : EditsTo [] v n) : v.length ≤ n := by
  generalize hs : ([] : List Nat) = s at h
  induction h with
  | nil => simp
  | copy u v a n _ _ => exact absurd hs.symm (by simp)
  | subst u v a b n _ _ => exact absurd hs.symm (by simp)
  | del u v a n _ _ => exact absurd hs.symm (by simp)
  | ins u v b n h ih => simpa using Nat.add_le_add_right (ih hs) 1

theorem editsTo_nil_right_le {u : List Nat} {n : Nat}
    (h : EditsTo u [] n) : u.length ≤ n := by
  generalize ht : ([] : List Nat) = t at h
  induction h with
  | nil => simp
  | copy u v a n _ _ => exact absurd ht.symm (by simp)
  | subst u v a b n _ _ => exact absurd ht.symm (by simp)
  | del u v a n h ih => simpa using Nat.add_le_add_right (ih ht) 1
  | ins u v b n _ _ => exact absurd ht.symm (by simp)

theorem snoc_inj {u v : List Nat} {a b : Nat}
    (h : u ++ [a] = v ++ [b]) : u = v ∧ a = b := by
  have h2 := List.append_inj' h rfl
  exact ⟨h2.1, by simpa using h2.2⟩

/-- Inversion for scripts between two nonempty strings. -/
theorem editsTo_snoc_inv {s t : List Nat} {n : Nat} (h : EditsTo s t n)
    {u v : List Nat} {a b : Nat} (hs : s = u ++ [a]) (ht : t = v ++ [b]) :
    (a = b ∧ ∃ m, m ≤ n ∧ EditsTo u v m) ∨
    (∃ m, m + 1 ≤ n ∧ EditsTo u v m) ∨
    (∃ m, m + 1 ≤ n ∧ EditsTo u (v ++ [b]) m) ∨
    (∃ m, m + 1 ≤ n ∧ EditsTo (u ++ [a]) v m) := by
  cases h with
  | nil => exact absurd hs (by simp)
  | copy u' v' a' n h' =>
    obtain ⟨rfl, rfl⟩ := snoc_inj hs.symm
    obtain ⟨rfl, rfl⟩ := snoc_inj ht.symm
    exact Or.inl ⟨rfl, n, le_refl n, h'⟩
  | subst u' v' a' b' n h' =>
    obtain ⟨rfl, rfl⟩ := snoc_inj hs.symm
    obtain ⟨rfl, rfl⟩ := snoc_inj ht.symm
    exact Or.inr (Or.inl ⟨n, le_refl (n + 1), h'⟩)
  | del u' v' a' n h' =>
    obtain ⟨rfl, rfl⟩ := snoc_inj hs.symm
    exact Or.inr (Or.inr (Or.inl ⟨n, le_refl (n + 1), ht ▸ h'⟩))
  | ins u' v' b' n h' =>
    obtain ⟨rfl, rfl⟩ := snoc_inj ht.symm
    exact Or.inr (Or.inr (Or.inr ⟨n, le_refl (n + 1), hs ▸ h'⟩))

/-- The dynamic-programming recurrence is exactly the least edit cost:
if `x`, `y`, `z` are the least costs of the three subproblems then the
three-way minimum of the source is the least cost for the extended
strings. -/
theorem isLeast_editsTo_snoc {u v : List Nat} {a b : Nat} {x y z : Nat}
    (hx : IsLeast {n | EditsTo u (v ++ [b]) n} x)
    (hy : IsLeast {n | EditsTo (u ++ [a]) v n} y)
    (hz : IsLeast {n | EditsTo u v n} z) :
    IsLeast {n | EditsTo (u ++ [a]) (v ++ [b]) n}
      (min (min (x + 1) (y + 1)) (z + (if a = b then 0 else 1))) := by
  constructor
  · -- the minimum is attained by one of the three scripts
    rcases Nat.lt_or_ge (min (x + 1) (y + 1)) (z + (if a = b then 0 else 1)) with hlt | hge
    · rw [min_eq_left (le_of_lt hlt)]
      rcases Nat.le_total (x + 1) (y + 1) with hxy | hyx
      · rw [min_eq_left hxy]
        exact EditsTo.del u (v ++ [b]) a x hx.1
      · rw [min_eq_right hyx]
        exact EditsTo.ins (u ++ [a]) v b y hy.1
    · rw [min_eq_right hge]
      by_cases hab : a = b
      · subst hab
        simpa using EditsTo.copy u v a z hz.1
      · simpa [hab] using EditsTo.subst u v a b z hz.1
  · -- lower bound
    intro n hn
    rcases editsTo_snoc_inv hn rfl rfl with ⟨hab, m, hm, he⟩ | ⟨m, hm, he⟩ | ⟨m, hm, he⟩ | ⟨m, hm, he⟩
    · have hzm := hz.2 he
      simp only [hab, if_pos]
      omega
    · have hzm := hz.2 he
      have : z + (if a = b then 0 else 1) ≤ n := by split <;> omega
      omega
    · have hxm := hx.2 he
      omega
    · have hym := hy.2 he
      omega

theorem isLeast_editsTo_nil_left (v : List Nat) :
    IsLeast {n | EditsTo [] v n} v.length :=
  ⟨editsTo_nil_left v, fun _ hn => editsTo_nil_left_le hn⟩

theorem isLeast_editsTo_nil_right (u : List Nat) :
    IsLeast {n | EditsTo u [] n} u.length :=
  ⟨editsTo_nil_right u, fun _ hn => editsTo_nil_right_le hn⟩

theorem levCell_eq_min (pv left diag cost : Nat) :
    levCell pv left diag cost = min (min (pv + 1) (left + 1)) (diag + cost) := by
  unfold levCell
  split <;> split <;> omega

/-- Row invariant: one application of `levRowGo` turns a row of least
costs against `u` into a row of least costs against `u ++ [a]`. -/
theorem levRowGo_spec (a : Nat) (u : List Nat) :
    ∀ (ts v : List Nat) (diag : Nat) (pvs : List Nat) (left : Nat),
      IsLeast {n | EditsTo u v n} diag →
      IsLeast {n | EditsTo (u ++ [a]) v n} left →
      pvs.length = ts.length →
      (∀ k, k < ts.length →
        IsLeast {n | EditsTo u (v ++ ts.take (k + 1)) n} (pvs.getD k 0)) →
      (levRowGo a ts diag pvs left).length = ts.length ∧
      (∀ k, k < ts.length →
        IsLeast {n | EditsTo (u ++ [a]) (v ++ ts.take (k + 1)) n}
          ((levRowGo a ts diag pvs left).getD k 0))
  | [], v, diag, pvs, left, _, _, _, _ => by simp [levRowGo]
  | tc :: ts, v, diag, [], left, _, _, hlen, _ => by simp at hlen
  | tc :: ts, v, diag, pv :: pvs, left, hdiag, hleft, hlen, hpvs => by
    have hpv0 : IsLeast {n | EditsTo u (v ++ [tc]) n} pv := by
      have h0 := hpvs 0 (by simp)
      simpa using h0
    have hc : IsLeast {n | EditsTo (u ++ [a]) (v ++ [tc]) n}
        (levCell pv left diag (if a = tc then 0 else 1)) := by
      rw [levCell_eq_min]
      exact isLeast_editsTo_snoc hpv0 hleft hdiag
    have hlen' : pvs.length = ts.length := by simpa using hlen
    have hpvs' : ∀ k, k < ts.length →
        IsLeast {n | EditsTo u ((v ++ [tc]) ++ ts.take (k + 1)) n} (pvs.getD k 0) := by
      intro k hk
      have h1 := hpvs (k + 1) (by simpa using Nat.succ_lt_succ hk)
      simpa [List.append_assoc] using h1
    have IH := levRowGo_spec a u ts (v ++ [tc]) pv pvs
      (levCell pv left diag (if a = tc then 0 else 1)) hpv0 hc hlen' hpvs'
    constructor
    · simp only [levRowGo, List.length_cons]
      omega
    · intro k hk
      match k with
      | 0 =>
        simpa [levRowGo] using hc
      | k + 1 =>
        have hk' : k < ts.length := by simpa using Nat.lt_of_succ_lt_succ hk
        have h2 := IH.2 k hk'
        simpa [levRowGo, List.append_assoc] using h2

/-- Outer-loop invariant: folding the rows over `s` turns the initial
row for `u` into the row of least costs for `u ++ s`. -/
theorem levRows_spec (t : List Nat) :
    ∀ (s u : List Nat) (prev : List Nat),
      prev.length = t.length + 1 →
      (∀ j, j ≤ t.length → IsLeast {n | EditsTo u (t.take j) n} (prev.getD j 0)) →
      ((s.foldl (fun p a => levRow a t p) prev).length = t.length + 1 ∧
       ∀ j, j ≤ t.length →
         IsLeast {n | EditsTo (u ++ s) (t.take j) n}
           ((s.foldl (fun p a => levRow a t p) prev).getD j 0)) := by
  intro s
  induction s with
  | nil =>
    intro u prev hlen hprev
    refine ⟨by simpa using hlen, ?_⟩
    intro j hj
    have h1 := hprev j hj
    simpa using h1
  | cons a s ih =>
    intro u prev hlen hprev
    match prev, hlen with
    | p0 :: rest, hlen =>
      have hp0 : IsLeast {n | EditsTo u [] n} p0 := by simpa using hprev 0 (by omega)
      have hp0u : p0 = u.length := hp0.unique (isLeast_editsTo_nil_right u)
      have hleft : IsLeast {n | EditsTo (u ++ [a]) [] n} (p0 + 1) := by
        have h1 := isLeast_editsTo_nil_right (u ++ [a])
        simpa [hp0u] using h1
      have hrest : rest.length = t.length := by simpa using hlen
      have hcells : ∀ k, k < t.length →
          IsLeast {n | EditsTo u (([] : List Nat) ++ t.take (k + 1)) n} (rest.getD k 0) := by
        intro k hk
        have h1 := hprev (k + 1) (by omega)
        simpa using h1
      have hrow := levRowGo_spec a u t [] p0 rest (p0 + 1) (by simpa using hp0) hleft hrest hcells
      have hstep : ∀ j, j ≤ t.length →
          IsLeast {n | EditsTo (u ++ [a]) (t.take j) n} ((levRow a t (p0 :: rest)).getD j 0) := by
        intro j hj
        match j with
        | 0 => simpa [levRow] using hleft
        | j + 1 =>
          have hj' : j < t.length := by omega
          have h2 := hrow.2 j hj'
          simpa [levRow] using h2
      have hlen2 : (levRow a t (p0 :: rest)).length = t.length + 1 := by
        simp only [levRow, List.length_cons]
        omega
      have IH := ih (u ++ [a]) (levRow a t (p0 :: rest)) hlen2 hstep
      constructor
      · simpa using IH.1
      · intro j hj
        have h3 := IH.2 j hj
        simpa [List.append_assoc] using h3

/-- The two-row dynamic program computes the least edit cost. -/
theorem levenshteinDistance_isLeast (s t : List Nat) :
    IsLeast {n | EditsTo s t n} (levenshteinDistance s t) := by
  have hinit : ∀ j, j ≤ t.length →
      IsLeast {n | EditsTo ([] : List Nat) (t.take j) n}
        ((List.range (t.length + 1)).getD j 0) := by
    intro j hj
    have hget : (List.range (t.length + 1)).getD j 0 = j := by
      rw [List.getD_eq_getElem _ _ (by simpa using Nat.lt_succ_of_le hj)]
      simp
    rw [hget]
    have h1 := isLeast_editsTo_nil_left (t.take j)
    simpa [List.length_take, Nat.min_eq_left hj] using h1
  have h := levRows_spec t s [] (List.range (t.length + 1)) (by simp) hinit
  have h2 := h.2 t.length (le_refl t.length)
  simpa [levenshteinDistance] using h2

/-- C7: for every pair of strings (when allocation succeeds),
`distance(a, b)` equals the Levenshtein distance — the minimum total
cost of single-character insertions, deletions and substitutions (each
cost 1) transforming `a` into `b` — and in particular
`distance("kitten", "sitting") = 3`. -/
theorem claim_C7 :
    (∀ s t : List Nat, IsLeast {n | EditsTo s t n} (levenshteinDistance s t)) ∧
    levenshteinDistance (bytesOf "kitten") (bytesOf "sitting") = 3 :=
  ⟨levenshteinDistance_isLeast, by decide⟩

/-- Witness for C7: the least-cost property evaluated at a concrete pair. -/
theorem claim_C7_witness :
    IsLeast {n | EditsTo (bytesOf "kitten") (bytesOf "sitting") n} 3 := by
  have h := claim_C7.1 (bytesOf "kitten") (bytesOf "sitting")
  have h3 : levenshteinDistance (bytesOf "kitten") (bytesOf "sitting") = 3 := by decide
  rw [h3] at h
  exact h

/-- C2 fails on the code: when the two working rows cannot be allocated,
`levenshteinDistance` does not abort the process; it returns `INT_MAX`
to its caller as an ordinary numeric result (here on inputs whose true
distance is 1, so the numeric answer is wrong). -/
theorem claim_C2_counterexample :
    levenshteinDistanceC false (bytesOf "a") (bytesOf "b") = 2147483647 ∧
    levenshteinDistanceC true (bytesOf "a") (bytesOf "b") = 1 ∧
    (2147483647 : Int) ≠ 1 := by
  refine ⟨rfl, by decide, by decide⟩

/-- C2 as amended: on allocation failure `distance` returns the sentinel
`INT_MAX` to the caller (it does not terminate the process), and when
allocation succeeds it returns the true distance. -/
theorem claim_C2_amended :
    (∀ s t : List Nat, levenshteinDistanceC false s t = INT_MAX) ∧
    (∀ s t : List Nat, levenshteinDistanceC true s t = (levenshteinDistance s t : Int)) :=
  ⟨fun _ _ => rfl, fun _ _ => rfl⟩

/-! ## `Suggestion`, `addSuggestion`, `compareSuggestions` (source embedding)

`SuggestionList` is the live portion (`count` entries) of the fixed
array of the source; `initSuggestionList` makes it empty.  The
worst-entry scan of `addSuggestion` (`for i = 1 .. MAX_SUGGESTIONS-1`)
is `findWorstGo`. -/

/-- One ranked record, as in the source. -/
structure Suggestion where
  word : List Nat
  distance : Nat
  frequency : Int
deriving DecidableEq

instance : Inhabited Suggestion := ⟨⟨[], 0, 0⟩⟩

def MAX_SUGGESTIONS : Nat := 10

def MAX_LEVENSHTEIN_DISTANCE : Nat := 2

def MAX_WORDS : Nat := 1000

/-- The comparison used by the worst-entry scan: entry `x` is strictly
worse than entry `y` (larger distance, or equal distance and smaller
frequency). -/
def worseThan (x y : Suggestion) : Bool :=
  decide (x.distance > y.distance ∨ (x.distance = y.distance ∧ x.frequency < y.frequency))

/-- The replacement test of `addSuggestion`: the offered record is
strictly better than the worst entry. -/
def betterThan (x y : Suggestion) : Bool :=
  decide (x.distance < y.distance ∨ (x.distance = y.distance ∧ x.frequency > y.frequency))

/-- The scan `for (i = 1; …)` locating the worst entry; `wIdx`/`wVal`
are the index and value of the worst entry so far, `i` the index of the
head of `xs` in the full array. -/
def findWorstGo : Nat → Suggestion → Nat → List Suggestion → Nat
  | wIdx, _, _, [] => wIdx
  | wIdx, wVal, i, x :: xs =>
    if worseThan x wVal then findWorstGo i x (i + 1) xs
    else findWorstGo wIdx wVal (i + 1) xs

/-- `addSuggestion` from the source: append while below capacity,
otherwise replace the worst entry when the offer is strictly better. -/
def addSuggestion (l : List Suggestion) (w : List Nat) (d : Nat) (f : Int) :
    List Suggestion :=
  if l.length < MAX_SUGGESTIONS then l ++ [⟨w, d, f⟩]
  else
    match l with
    | [] => []
    | s0 :: rest =>
      let wIdx := findWorstGo 0 s0 1 rest
      let worst := (s0 :: rest).getD wIdx default
      if betterThan ⟨w, d, f⟩ worst then (s0 :: rest).set wIdx ⟨w, d, f⟩
      else s0 :: rest

/-- `compareSuggestions` from the source (`qsort` comparator): negative
when `sa` precedes `sb` — lower distance first, then higher frequency. -/
def compareSuggestions (sa sb : Suggestion) : Int :=
  if sa.distance ≠ sb.distance then (sa.distance : Int) - (sb.distance : Int)
  else sb.frequency - sa.frequency

/-- The order induced by the comparator; `qsort` is modelled as
`List.mergeSort` over it. -/
def suggLE (a b : Suggestion) : Bool := decide (compareSuggestions a b ≤ 0)

theorem worseThan_irrefl (a : Suggestion) : worseThan a a = false := by
  simp only [worseThan, decide_eq_false_iff_not]
  omega

theorem worseThan_false_trans {a b c : Suggestion}
    (h1 : worseThan a b = false) (h2 : worseThan b c = false) :
    worseThan a c = false := by
  simp only [worseThan, decide_eq_false_iff_not] at h1 h2 ⊢
  omega

theorem worseThan_false_of_true_false {a b c : Suggestion}
    (h1 : worseThan b a = true) (h2 : worseThan b c = false) :
    worseThan a c = false := by
  simp only [worseThan, decide_eq_true_eq] at h1
  simp only [worseThan, decide_eq_false_iff_not] at h2 ⊢
  omega

/-- Scan invariant: starting from a current-worst index below `i`, the
scan returns an index of an entry no less worse than the current worst
and than every scanned entry. -/
theorem findWorstGo_spec (lkup : Nat → Suggestion) :
    ∀ (xs : List Suggestion) (i wIdx : Nat),
      (∀ k, k < xs.length → xs.getD k default = lkup (i + k)) →
      wIdx < i →
      ∃ r, findWorstGo wIdx (lkup wIdx) i xs = r ∧ r < i + xs.length ∧
        worseThan (lkup wIdx) (lkup r) = false ∧
        (∀ k, k < xs.length → worseThan (lkup (i + k)) (lkup r) = false) := by
  intro xs
  induction xs with
  | nil =>
    intro i wIdx _ hlt
    exact ⟨wIdx, rfl, by simpa using hlt, worseThan_irrefl _, by simp⟩
  | cons x xs ih =>
    intro i wIdx hk hlt
    have hx : x = lkup i := by simpa using hk 0 (by simp)
    have hk' : ∀ k, k < xs.length → xs.getD k default = lkup (i + 1 + k) := by
      intro k hkk
      have h1 := hk (k + 1) (by simpa using Nat.succ_lt_succ hkk)
      simpa [Nat.add_comm, Nat.add_assoc, Nat.add_left_comm] using h1
    by_cases hw : worseThan x (lkup wIdx) = true
    · obtain ⟨r, hr, hrlt, hrw, hrall⟩ := ih (i + 1) i hk' (by omega)
      subst hx
      refine ⟨r, ?_, by simp; omega, ?_, ?_⟩
      · simp only [findWorstGo, hw, if_true]
        exact hr
      · exact worseThan_false_of_true_false hw hrw
      · intro k hkk
        match k with
        | 0 => simpa using hrw
        | k + 1 =>
          have h2 := hrall k (by simpa using Nat.lt_of_succ_lt_succ hkk)
          simpa [Nat.add_comm, Nat.add_assoc, Nat.add_left_comm] using h2
    · have hwf : worseThan x (lkup wIdx) = false := by
        cases h : worseThan x (lkup wIdx)
        · rfl
        · exact absurd h hw
      obtain ⟨r, hr, hrlt, hrw, hrall⟩ := ih (i + 1) wIdx hk' (by omega)
      refine ⟨r, ?_, by simp; omega, hrw, ?_⟩
      · simp only [findWorstGo, hwf]
        simpa using hr
      · intro k hkk
        match k with
        | 0 =>
          have h3 : worseThan (lkup i) (lkup r) = false := by
            rw [hx] at hwf
            exact worseThan_false_trans hwf hrw
          simpa using h3
        | k + 1 =>
          have h2 := hrall k (by simpa using Nat.lt_of_succ_lt_succ hkk)
          simpa [Nat.add_comm, Nat.add_assoc, Nat.add_left_comm] using h2

/-- C4: at capacity `K = 10`, an offer locates a worst retained entry —
one of maximum distance and, among entries of that distance, minimum
frequency — and replaces exactly that entry if and only if the offer is
strictly better under the order (distance ascending, then frequency
descending); otherwise the retained entries are unchanged. -/
theorem claim_C4 (l : List Suggestion) (w : List Nat) (d : Nat) (f : Int)
    (hlen : l.length = MAX_SUGGESTIONS) :
    ∃ i, i < l.length ∧
      (∀ j, j < l.length →
        (l.getD j default).distance ≤ (l.getD i default).distance) ∧
      (∀ j, j < l.length → (l.getD j default).distance = (l.getD i default).distance →
        (l.getD i default).frequency ≤ (l.getD j default).frequency) ∧
      addSuggestion l w d f =
        (if betterThan ⟨w, d, f⟩ (l.getD i default) then l.set i ⟨w, d, f⟩ else l) := by
  match l with
  | [] => simp [MAX_SUGGESTIONS] at hlen
  | s0 :: rest =>
    have hk : ∀ k, k < rest.length →
        rest.getD k default = (fun j => (s0 :: rest).getD j default) (1 + k) := by
      intro k hkk
      simp [Nat.add_comm 1 k]
    obtain ⟨r, hr, hrlt, hrw, hrall⟩ :=
      findWorstGo_spec (fun j => (s0 :: rest).getD j default) rest 1 0 hk (by omega)
    have hworst : ∀ j, j < (s0 :: rest).length →
        worseThan ((s0 :: rest).getD j default) ((s0 :: rest).getD r default) = false := by
      intro j hj
      match j with
      | 0 => exact hrw
      | j + 1 =>
        have h2 := hrall j (by simpa using Nat.lt_of_succ_lt_succ hj)
        simpa [Nat.add_comm 1 j] using h2
    refine ⟨r, by simp only [List.length_cons]; omega, ?_, ?_, ?_⟩
    · intro j hj
      have h3 := hworst j hj
      simp only [worseThan, decide_eq_false_iff_not] at h3
      omega
    · intro j hj hdist
      have h3 := hworst j hj
      simp only [worseThan, decide_eq_false_iff_not] at h3
      omega
    · have hnot : ¬ ((s0 :: rest).length < MAX_SUGGESTIONS) := by omega
      simp only [addSuggestion, if_neg hnot]
      have hfind : findWorstGo 0 s0 1 rest = r := hr
      rw [hfind]

/-- Concrete full ranker used to witness C4. -/
def exC4 : List Suggestion :=
  [⟨bytesOf "alpha", 0, 5⟩, ⟨bytesOf "beta", 1, 7⟩, ⟨bytesOf "gamma", 2, 1⟩,
   ⟨bytesOf "delta", 0, 9⟩, ⟨bytesOf "eps", 2, 4⟩, ⟨bytesOf "zeta", 1, 1⟩,
   ⟨bytesOf "eta", 2, 0⟩, ⟨bytesOf "theta", 0, 2⟩, ⟨bytesOf "iota", 1, 3⟩,
   ⟨bytesOf "kappa", 2, 2⟩]

/-- Witness for C4 at a concrete full ranker and offer. -/
theorem claim_C4_witness :
    exC4.length = MAX_SUGGESTIONS ∧
    ∃ i, i < exC4.length ∧
      (∀ j, j < exC4.length →
        (exC4.getD j default).distance ≤ (exC4.getD i default).distance) ∧
      (∀ j, j < exC4.length → (exC4.getD j default).distance = (exC4.getD i default).distance →
        (exC4.getD i default).frequency ≤ (exC4.getD j default).frequency) ∧
      addSuggestion exC4 (bytesOf "mu") 0 6 =
        (if betterThan ⟨bytesOf "mu", 0, 6⟩ (exC4.getD i default)
         then exC4.set i ⟨bytesOf "mu", 0, 6⟩ else exC4) :=
  ⟨by decide, claim_C4 exC4 (bytesOf "mu") 0 6 (by decide)⟩

/-! ## The trie (source embedding)

`TrieNode` carries the 26 child slots as a list of options (a slot per
letter, `none` meaning no child), the end-of-word mark, the stored
original-case spelling and the frequency.  `createTrieNode` is the
`calloc`-zeroed node of the source. -/

inductive TrieNode : Type where
  | mk (children : List (Option TrieNode)) (isEndOfWord : Bool)
       (originalWord : Option (List Nat)) (frequency : Int)

def TrieNode.children : TrieNode → List (Option TrieNode)
  | .mk cs _ _ _ => cs

def TrieNode.isEndOfWord : TrieNode → Bool
  | .mk _ e _ _ => e

def TrieNode.originalWord : TrieNode → Option (List Nat)
  | .mk _ _ w _ => w

def TrieNode.frequency : TrieNode → Int
  | .mk _ _ _ f => f

def ALPHABET_SIZE : Nat := 26

/-- `createTrieNode` from the source. -/
def createTrieNode : TrieNode := .mk (List.replicate 26 none) false none 0

/-- `current->children[index]`. -/
def getChild (t : TrieNode) (i : Nat) : Option TrieNode := t.children.getD i none

/-- The child indices walked for a word: `lowerWord[i] - 'a'`. -/
def pathOf (w : List Nat) : List Nat := (strtolower w).map (fun c => c - 97)

/-- The walk of `insertWord` along the lowercased word, creating missing
nodes, followed by the terminal update of the source: mark the node,
and overwrite spelling and frequency when the node had no word yet or
the new frequency is strictly greater. -/
def insertGo : TrieNode → List Nat → List Nat → Int → TrieNode
  | .mk cs _ ow of, [], w, f =>
    if ow = none ∨ of < f then .mk cs true (some w) f else .mk cs true ow of
  | .mk cs e ow of, i :: p, w, f =>
    let child := match cs.getD i none with
      | none => createTrieNode
      | some c => c
    .mk (cs.set i (some (insertGo child p w f))) e ow of

/-- `insertWord` from the source (returns the store unchanged on the
empty word, as the C function does). -/
def insertWord (t : TrieNode) (w : List Nat) (f : Int) : TrieNode :=
  if w = [] then t else insertGo t (pathOf w) w f

/-- A store built by a sequence of insertions into the empty store. -/
def insertAll (ws : List (List Nat × Int)) : TrieNode :=
  ws.foldl (fun t wf => insertWord t wf.1 wf.2) createTrieNode

/-- The node reached by walking a list of child indices. -/
def subtrieAt : TrieNode → List Nat → Option TrieNode
  | t, [] => some t
  | t, i :: p =>
    match getChild t i with
    | none => none
    | some c => subtrieAt c p

/-- The terminal payload (spelling, frequency) stored at a path. -/
def termInfoAt (t : TrieNode) (p : List Nat) : Option (List Nat × Int) :=
  match subtrieAt t p with
  | none => none
  | some n =>
    if n.isEndOfWord then
      match n.originalWord with
      | some w => some (w, n.frequency)
      | none => none
    else none

/-- Structural well-formedness of every reachable node: exactly 26 child
slots, and a stored word exactly on end-of-word nodes. -/
def NodesOK (t : TrieNode) : Prop :=
  ∀ p n, subtrieAt t p = some n →
    n.children.length = 26 ∧ (n.isEndOfWord = true ↔ n.originalWord ≠ none)

/-- The terminal update of one insertion, applied to the payload already
stored at the word's node. -/
def mergeIns (cur : Option (List Nat × Int)) (wf : List Nat × Int) :
    Option (List Nat × Int) :=
  match cur with
  | none => some wf
  | some (w0, f0) => if f0 < wf.2 then some wf else some (w0, f0)

/-- The payload left at a node by a sequence of insertions of words
sharing that node. -/
def mergeList (l : List (List Nat × Int)) : Option (List Nat × Int) :=
  l.foldl mergeIns none

theorem subtrieAt_cons (t : TrieNode) (i : Nat) (p : List Nat) :
    subtrieAt t (i :: p) =
      match getChild t i with
      | none => none
      | some c => subtrieAt c p := rfl

theorem termInfoAt_cons_some {t c : TrieNode} {i : Nat} (h : getChild t i = some c)
    (p : List Nat) : termInfoAt t (i :: p) = termInfoAt c p := by
  simp [termInfoAt, subtrieAt_cons, h]

theorem termInfoAt_cons_none {t : TrieNode} {i : Nat} (h : getChild t i = none)
    (p : List Nat) : termInfoAt t (i :: p) = none := by
  simp [termInfoAt, subtrieAt_cons, h]

theorem getChild_create (i : Nat) : getChild createTrieNode i = none := by
  simp only [getChild, createTrieNode, TrieNode.children, List.getD,
    List.get?_eq_getElem?, List.getElem?_replicate]
  split <;> simp

theorem subtrieAt_create_ne_nil {p : List Nat} (h : p ≠ []) :
    subtrieAt createTrieNode p = none := by
  match p with
  | [] => exact absurd rfl h
  | i :: p' => simp [subtrieAt_cons, getChild_create]

theorem termInfoAt_create (p : List Nat) : termInfoAt createTrieNode p = none := by
  match p with
  | [] => simp [termInfoAt, subtrieAt, createTrieNode, TrieNode.isEndOfWord]
  | i :: p' => simp [termInfoAt, subtrieAt_cons, getChild_create]

theorem nodesOK_create : NodesOK createTrieNode := by
  intro p n hp
  match p with
  | [] =>
    simp only [subtrieAt, Option.some.injEq] at hp
    subst hp
    simp [createTrieNode, TrieNode.children, TrieNode.isEndOfWord, TrieNode.originalWord]
  | i :: p' =>
    rw [subtrieAt_create_ne_nil (by simp)] at hp
    exact absurd hp (by simp)

theorem nodesOK_child {t c : TrieNode} {i : Nat} (h : NodesOK t)
    (hc : getChild t i = some c) : NodesOK c := by
  intro p n hp
  refine h (i :: p) n ?_
  simp [subtrieAt_cons, hc, hp]

theorem getChild_mk (cs : List (Option TrieNode)) (e : Bool)
    (ow : Option (List Nat)) (of : Int) (i : Nat) :
    getChild (.mk cs e ow of) i = cs.getD i none := rfl

theorem getD_set_self {α : Type} {cs : List α} {i : Nat} (h : i < cs.length)
    (x d : α) : (cs.set i x).getD i d = x := by
  simp [List.getD, List.get?_eq_getElem?, List.getElem?_set_self h]

theorem getD_set_ne {α : Type} {cs : List α} {i j : Nat} (h : i ≠ j)
    (x d : α) : (cs.set i x).getD j d = cs.getD j d := by
  simp [List.getD, List.get?_eq_getElem?, List.getElem?_set_ne h]

theorem subtrieAt_cons_eq_of_getChild {t1 t2 : TrieNode} {j : Nat}
    (h : getChild t1 j = getChild t2 j) (p : List Nat) :
    subtrieAt t1 (j :: p) = subtrieAt t2 (j :: p) := by
  rw [subtrieAt_cons, subtrieAt_cons, h]

/-- `insertWord`'s walk preserves structural well-formedness. -/
theorem nodesOK_insertGo (w : List Nat) (f : Int) :
    ∀ (lw : List Nat) (t : TrieNode), NodesOK t → (∀ i ∈ lw, i < 26) →
      NodesOK (insertGo t lw w f)
  | [], .mk cs e ow of, hOK, _ => by
    intro p n hp
    have hroot := hOK [] (.mk cs e ow of) rfl
    match p with
    | [] =>
      by_cases hc : ow = none ∨ of < f
      · simp only [insertGo, if_pos hc, subtrieAt, Option.some.injEq] at hp
        subst hp
        refine ⟨by simpa [TrieNode.children] using hroot.1, ?_⟩
        simp [TrieNode.isEndOfWord, TrieNode.originalWord]
      · simp only [insertGo, if_neg hc, subtrieAt, Option.some.injEq] at hp
        subst hp
        push_neg at hc
        refine ⟨by simpa [TrieNode.children] using hroot.1, ?_⟩
        simp [TrieNode.isEndOfWord, TrieNode.originalWord, hc.1]
    | j :: p' =>
      have hch : getChild (insertGo (.mk cs e ow of) [] w f) j
          = getChild (.mk cs e ow of) j := by
        simp only [insertGo]
        split <;> rfl
      rw [subtrieAt_cons_eq_of_getChild hch] at hp
      exact hOK (j :: p') n hp
  | (i :: lw'), .mk cs e ow of, hOK, hlt => by
    intro p n hp
    have hroot := hOK [] (.mk cs e ow of) rfl
    have hcs : cs.length = 26 := by simpa [TrieNode.children] using hroot.1
    have hi : i < 26 := hlt i (by simp)
    match p with
    | [] =>
      simp only [insertGo, subtrieAt, Option.some.injEq] at hp
      subst hp
      refine ⟨by simp [TrieNode.children, List.length_set, hcs], ?_⟩
      have h2 := hroot.2
      simpa [TrieNode.isEndOfWord, TrieNode.originalWord] using h2
    | j :: p' =>
      by_cases hij : i = j
      · subst hij
        cases hgc : cs.getD i none with
        | none =>
          have hchild : getChild (insertGo (.mk cs e ow of) (i :: lw') w f) i
              = some (insertGo createTrieNode lw' w f) := by
            simp only [insertGo, hgc]
            exact getD_set_self (by omega) _ _
          rw [subtrieAt_cons, hchild] at hp
          exact nodesOK_insertGo w f lw' createTrieNode nodesOK_create
            (fun k hk => hlt k (by simp [hk])) p' n hp
        | some c =>
          have hchild : getChild (insertGo (.mk cs e ow of) (i :: lw') w f) i
              = some (insertGo c lw' w f) := by
            simp only [insertGo, hgc]
            exact getD_set_self (by omega) _ _
          rw [subtrieAt_cons, hchild] at hp
          have hcOK : NodesOK c := nodesOK_child hOK (t := .mk cs e ow of) (i := i) hgc
          exact nodesOK_insertGo w f lw' c hcOK
            (fun k hk => hlt k (by simp [hk])) p' n hp
      · have hch : getChild (insertGo (.mk cs e ow of) (i :: lw') w f) j
            = getChild (.mk cs e ow of) j := by
          simp only [insertGo, getChild_mk]
          exact getD_set_ne hij _ _
        rw [subtrieAt_cons_eq_of_getChild hch] at hp
        exact hOK (j :: p') n hp

/-- Effect of one insertion on the stored payloads: the payload at the
inserted word's own path is merged with the offered pair, every other
path is untouched. -/
theorem termInfoAt_insertGo (w : List Nat) (f : Int) :
    ∀ (lw : List Nat) (t : TrieNode), NodesOK t → (∀ i ∈ lw, i < 26) →
      ∀ p, termInfoAt (insertGo t lw w f) p =
        if p = lw then mergeIns (termInfoAt t lw) (w, f) else termInfoAt t p
  | [], .mk cs e ow of, hOK, _ => by
    intro p
    have hroot := hOK [] (.mk cs e ow of) rfl
    match p with
    | [] =>
      rw [if_pos rfl]
      cases how : ow with
      | none =>
        have he : e = false := by
          by_contra hne
          have := (hroot.2).1 (by simpa using eq_true_of_ne_false hne)
          simp [TrieNode.originalWord, how] at this
        subst how
        subst he
        simp [insertGo, termInfoAt, subtrieAt, mergeIns,
          TrieNode.isEndOfWord, TrieNode.originalWord, TrieNode.frequency]
      | some w0 =>
        have he : e = true := by
          apply (hroot.2).2
          simp [TrieNode.originalWord, how]
        subst how
        subst he
        by_cases hf : of < f
        · simp [insertGo, termInfoAt, subtrieAt, mergeIns, hf,
            TrieNode.isEndOfWord, TrieNode.originalWord, TrieNode.frequency]
        · simp [insertGo, termInfoAt, subtrieAt, mergeIns, hf,
            TrieNode.isEndOfWord, TrieNode.originalWord, TrieNode.frequency]
    | j :: p' =>
      rw [if_neg (by simp)]
      have hch : getChild (insertGo (.mk cs e ow of) [] w f) j
          = getChild (.mk cs e ow of) j := by
        simp only [insertGo]
        split <;> rfl
      cases hgc : getChild (.mk cs e ow of) j with
      | none => rw [termInfoAt_cons_none (hch.trans hgc), termInfoAt_cons_none hgc]
      | some c => rw [termInfoAt_cons_some (hch.trans hgc), termInfoAt_cons_some hgc]
  | (i :: lw'), .mk cs e ow of, hOK, hlt => by
    intro p
    have hroot := hOK [] (.mk cs e ow of) rfl
    have hcs : cs.length = 26 := by simpa [TrieNode.children] using hroot.1
    have hi : i < 26 := hlt i (by simp)
    match p with
    | [] =>
      rw [if_neg (by simp)]
      simp [insertGo, termInfoAt, subtrieAt,
        TrieNode.isEndOfWord, TrieNode.originalWord, TrieNode.frequency]
    | j :: p' =>
      by_cases hij : i = j
      · subst hij
        cases hgc : cs.getD i none with
        | none =>
          have hnone : getChild (.mk cs e ow of) i = none := hgc
          have hchild : getChild (insertGo (.mk cs e ow of) (i :: lw') w f) i
              = some (insertGo createTrieNode lw' w f) := by
            simp only [insertGo, hgc]
            exact getD_set_self (by omega) _ _
          rw [termInfoAt_cons_some hchild,
            termInfoAt_insertGo w f lw' createTrieNode nodesOK_create
              (fun k hk => hlt k (by simp [hk])) p']
          simp only [termInfoAt_cons_none hnone, termInfoAt_create]
          by_cases hp : p' = lw'
          · simp [hp]
          · simp [hp]
        | some c =>
          have hsome : getChild (.mk cs e ow of) i = some c := hgc
          have hchild : getChild (insertGo (.mk cs e ow of) (i :: lw') w f) i
              = some (insertGo c lw' w f) := by
            simp only [insertGo, hgc]
            exact getD_set_self (by omega) _ _
          have hcOK : NodesOK c := nodesOK_child hOK (t := .mk cs e ow of) (i := i) hgc
          rw [termInfoAt_cons_some hchild,
            termInfoAt_insertGo w f lw' c hcOK (fun k hk => hlt k (by simp [hk])) p']
          simp only [termInfoAt_cons_some hsome]
          by_cases hp : p' = lw'
          · simp [hp]
          · simp [hp]
      · have hne : (j : Nat) :: p' ≠ i :: lw' := by
          intro hcon
          have hji : j = i := by injection hcon
          exact hij hji.symm
        rw [if_neg hne]
        have hch : getChild (insertGo (.mk cs e ow of) (i :: lw') w f) j
            = getChild (.mk cs e ow of) j := by
          simp only [insertGo, getChild_mk]
          exact getD_set_ne hij _ _
        cases hgc : getChild (.mk cs e ow of) j with
        | none => rw [termInfoAt_cons_none (hch.trans hgc), termInfoAt_cons_none hgc]
        | some c => rw [termInfoAt_cons_some (hch.trans hgc), termInfoAt_cons_some hgc]

/-- Effect of one insertion on node existence: a node exists afterwards
at `p` iff it existed before or `p` lies along the inserted path. -/
theorem subtrieAt_isSome_insertGo (w : List Nat) (f : Int) :
    ∀ (lw : List Nat) (t : TrieNode), NodesOK t → (∀ i ∈ lw, i < 26) →
      ∀ p, ((subtrieAt (insertGo t lw w f) p).isSome = true ↔
        ((subtrieAt t p).isSome = true ∨ ∃ q, lw = p ++ q))
  | [], .mk cs e ow of, hOK, _ => by
    intro p
    match p with
    | [] =>
      constructor
      · intro _
        exact Or.inr ⟨[], rfl⟩
      · intro _
        simp only [insertGo]
        split <;> simp [subtrieAt]
    | j :: p' =>
      have hch : getChild (insertGo (.mk cs e ow of) [] w f) j
          = getChild (.mk cs e ow of) j := by
        simp only [insertGo]
        split <;> rfl
      rw [subtrieAt_cons_eq_of_getChild hch]
      simp
  | (i :: lw'), .mk cs e ow of, hOK, hlt => by
    intro p
    have hroot := hOK [] (.mk cs e ow of) rfl
    have hcs : cs.length = 26 := by simpa [TrieNode.children] using hroot.1
    have hi : i < 26 := hlt i (by simp)
    match p with
    | [] => simp [insertGo, subtrieAt]
    | j :: p' =>
      by_cases hij : i = j
      · subst hij
        cases hgc : cs.getD i none with
        | none =>
          have hnone : getChild (.mk cs e ow of) i = none := hgc
          have hchild : getChild (insertGo (.mk cs e ow of) (i :: lw') w f) i
              = some (insertGo createTrieNode lw' w f) := by
            simp only [insertGo, hgc]
            exact getD_set_self (by omega) _ _
          rw [subtrieAt_cons, hchild]
          rw [subtrieAt_cons, hnone]
          have IH := subtrieAt_isSome_insertGo w f lw' createTrieNode nodesOK_create
            (fun k hk => hlt k (by simp [hk])) p'
          rw [IH]
          match p' with
          | [] => simp [subtrieAt]
          | x :: p'' =>
            rw [subtrieAt_create_ne_nil (by simp)]
            simp
        | some c =>
          have hsome : getChild (.mk cs e ow of) i = some c := hgc
          have hchild : getChild (insertGo (.mk cs e ow of) (i :: lw') w f) i
              = some (insertGo c lw' w f) := by
            simp only [insertGo, hgc]
            exact getD_set_self (by omega) _ _
          have hcOK : NodesOK c := nodesOK_child hOK (t := .mk cs e ow of) (i := i) hgc
          rw [subtrieAt_cons, hchild, subtrieAt_cons, hsome]
          have IH := subtrieAt_isSome_insertGo w f lw' c hcOK
            (fun k hk => hlt k (by simp [hk])) p'
          rw [IH]
          simp
      · have hch : getChild (insertGo (.mk cs e ow of) (i :: lw') w f) j
            = getChild (.mk cs e ow of) j := by
          simp only [insertGo, getChild_mk]
          exact getD_set_ne hij _ _
        rw [subtrieAt_cons_eq_of_getChild hch]
        have hne : ¬ ∃ q, i :: lw' = (j :: p') ++ q := by
          intro ⟨q, hq⟩
          have hji : i = j := by injection hq
          exact hij hji
        refine ⟨fun h => Or.inl h, fun h => ?_⟩
        rcases h with h | hq
        · exact h
        · exact absurd hq hne

theorem pathOf_lt_26 {w : List Nat} (h : isValidWord w = true) :
    ∀ i ∈ pathOf w, i < 26 := by
  intro i hi
  simp only [pathOf, strtolower, List.map_map, List.mem_map, Function.comp] at hi
  obtain ⟨c, hc, rfl⟩ := hi
  have hal : isalphaB c = true := by
    have := List.all_eq_true.mp h
    exact this c hc
  simp only [isalphaB, Bool.or_eq_true, Bool.and_eq_true, decide_eq_true_eq] at hal
  simp only [tolowerB]
  rcases hal with ⟨h1, h2⟩ | ⟨h1, h2⟩ <;> split <;> omega

theorem pathOf_map_add {w : List Nat} (h : isValidWord w = true) :
    (pathOf w).map (fun i => i + 97) = strtolower w := by
  simp only [pathOf, List.map_map]
  have hid : ∀ c ∈ strtolower w, ((fun i => i + 97) ∘ (fun c => c - 97)) c = id c := by
    intro c hc
    simp only [strtolower, List.mem_map] at hc
    obtain ⟨c0, hc0, rfl⟩ := hc
    have hal : isalphaB c0 = true := List.all_eq_true.mp h c0 hc0
    simp only [isalphaB, Bool.or_eq_true, Bool.and_eq_true, decide_eq_true_eq] at hal
    simp only [tolowerB, id, Function.comp]
    rcases hal with ⟨h1, h2⟩ | ⟨h1, h2⟩ <;> split <;> omega
  rw [List.map_congr_left hid, List.map_id]

theorem pathOf_inj {w1 w2 : List Nat} (h1 : isValidWord w1 = true)
    (h2 : isValidWord w2 = true) (h : pathOf w1 = pathOf w2) :
    strtolower w1 = strtolower w2 := by
  rw [← pathOf_map_add h1, ← pathOf_map_add h2, h]

/-- The master description of every store reachable by insertions of
nonempty all-letter words: nodes are well formed, the payload at each
path is the merge of the insertions whose word walks exactly that path,
and a node exists exactly on the walked prefixes. -/
theorem insertAll_spec (ws : List (List Nat × Int))
    (hws : ∀ wf ∈ ws, wf.1 ≠ [] ∧ isValidWord wf.1 = true) :
    NodesOK (insertAll ws) ∧
    (∀ p, termInfoAt (insertAll ws) p
        = mergeList (ws.filter (fun wf => decide (pathOf wf.1 = p)))) ∧
    (∀ p, p ≠ [] → ((subtrieAt (insertAll ws) p).isSome = true ↔
        ∃ wf ∈ ws, ∃ q, pathOf wf.1 = p ++ q)) := by
  induction ws using List.reverseRecOn with
  | nil =>
    refine ⟨nodesOK_create, ?_, ?_⟩
    · intro p
      simp [insertAll, termInfoAt_create, mergeList]
    · intro p hp
      simp [insertAll, subtrieAt_create_ne_nil hp]
  | append_singleton ws wf ih =>
    obtain ⟨hOK, hterm, hsome⟩ := ih (fun x hx => hws x (by simp [hx]))
    obtain ⟨hne, hval⟩ := hws wf (by simp)
    have hstep : insertAll (ws ++ [wf]) = insertGo (insertAll ws) (pathOf wf.1) wf.1 wf.2 := by
      simp [insertAll, List.foldl_append, insertWord, hne]
    have hbound := pathOf_lt_26 hval
    refine ⟨?_, ?_, ?_⟩
    · rw [hstep]
      exact nodesOK_insertGo wf.1 wf.2 (pathOf wf.1) (insertAll ws) hOK hbound
    · intro p
      rw [hstep, termInfoAt_insertGo wf.1 wf.2 (pathOf wf.1) (insertAll ws) hOK hbound p]
      rw [List.filter_append]
      by_cases hp : p = pathOf wf.1
      · subst hp
        rw [if_pos rfl, hterm (pathOf wf.1)]
        have hfilter : List.filter (fun x => decide (pathOf x.1 = pathOf wf.1)) [wf]
            = [wf] := by simp
        rw [hfilter]
        simp [mergeList, List.foldl_append]
      · rw [if_neg hp]
        have hne2 : ¬ (pathOf wf.1 = p) := fun hcon => hp hcon.symm
        have hfilter : List.filter (fun x => decide (pathOf x.1 = p)) [wf] = [] := by
          simp [List.filter, hne2]
        rw [hfilter, List.append_nil, hterm p]
    · intro p hp
      rw [hstep]
      rw [subtrieAt_isSome_insertGo wf.1 wf.2 (pathOf wf.1) (insertAll ws) hOK hbound p]
      rw [hsome p hp]
      constructor
      · intro h
        rcases h with ⟨x, hx, q, hq⟩ | ⟨q, hq⟩
        · exact ⟨x, by simp [hx], q, hq⟩
        · exact ⟨wf, by simp, q, hq⟩
      · intro ⟨x, hx, q, hq⟩
        rcases List.mem_append.mp hx with hx | hx
        · exact Or.inl ⟨x, hx, q, hq⟩
        · have : x = wf := by simpa using hx
          subst this
          exact Or.inr ⟨q, hq⟩

theorem getD_append_left {α : Type} {l1 l2 : List α} {n : Nat} (h : n < l1.length)
    (d : α) : (l1 ++ l2).getD n d = l1.getD n d := by
  simp [List.getD, List.get?_eq_getElem?, List.getElem?_append_left h]

theorem getD_append_last {α : Type} (l1 : List α) (x d : α) :
    (l1 ++ [x]).getD l1.length d = x := by
  simp [List.getD, List.get?_eq_getElem?,
    List.getElem?_append_right (le_refl l1.length)]

/-- Auxiliary unfolding of `mergeIns` on a present payload. -/
theorem mergeIns_some (p x : List Nat × Int) :
    mergeIns (some p) x = if p.2 < x.2 then some x else some p := rfl

/-- What a sequence of merges leaves behind: the payload of the first
insertion whose frequency reached the running maximum — the frequency
is the maximum of all offered frequencies, and every earlier offer was
strictly below it. -/
theorem mergeList_spec (l : List (List Nat × Int)) (hne : l ≠ []) :
    ∃ k, k < l.length ∧ mergeList l = some (l.getD k default) ∧
      (∀ j, j < l.length → (l.getD j default).2 ≤ (l.getD k default).2) ∧
      (∀ j, j < k → (l.getD j default).2 < (l.getD k default).2) := by
  induction l using List.reverseRecOn with
  | nil => exact absurd rfl hne
  | append_singleton l x ih =>
    by_cases hl : l = []
    · subst hl
      refine ⟨0, by simp, by simp [mergeList, mergeIns], ?_, by omega⟩
      intro j hj
      have hj0 : j = 0 := by
        simp only [List.nil_append, List.length_cons, List.length_nil] at hj
        omega
      subst hj0
      simp
    · obtain ⟨k, hk, hmerge, hmax, hstrict⟩ := ih hl
      have hmstep : mergeList (l ++ [x]) = mergeIns (mergeList l) x := by
        simp [mergeList, List.foldl_append]
      rw [hmstep, hmerge, mergeIns_some]
      by_cases hlt : (l.getD k default).2 < x.2
      · refine ⟨l.length, by simp, ?_, ?_, ?_⟩
        · rw [getD_append_last, if_pos hlt]
        · intro j hj
          rw [getD_append_last]
          rcases Nat.lt_or_ge j l.length with hj2 | hj2
          · rw [getD_append_left hj2]
            exact le_of_lt (lt_of_le_of_lt (hmax j hj2) hlt)
          · have hj3 : j < l.length + 1 := by simpa using hj
            have hj4 : j = l.length := by omega
            subst hj4
            rw [getD_append_last]
        · intro j hj
          rw [getD_append_last, getD_append_left hj]
          exact lt_of_le_of_lt (hmax j hj) hlt
      · refine ⟨k, by simp; omega, ?_, ?_, ?_⟩
        · rw [getD_append_left hk, if_neg hlt]
        · intro j hj
          rw [getD_append_left hk]
          rcases Nat.lt_or_ge j l.length with hj2 | hj2
          · rw [getD_append_left hj2]
            exact hmax j hj2
          · have hj3 : j < l.length + 1 := by simpa using hj
            have hj4 : j = l.length := by omega
            subst hj4
            rw [getD_append_last]
            omega
        · intro j hj
          rw [getD_append_left hk, getD_append_left (by omega)]
          exact hstrict j hj

/-- The insertions of `ws` whose word has the same case-folded form as
`w`. -/
def insertionsOf (ws : List (List Nat × Int)) (w : List Nat) : List (List Nat × Int) :=
  ws.filter (fun wf => decide (strtolower wf.1 = strtolower w))

theorem termInfoAt_eq_some {t : TrieNode} {p : List Nat} {pair : List Nat × Int} :
    termInfoAt t p = some pair ↔
    ∃ n, subtrieAt t p = some n ∧ n.isEndOfWord = true ∧
      n.originalWord = some pair.1 ∧ n.frequency = pair.2 := by
  unfold termInfoAt
  cases h : subtrieAt t p with
  | none => simp
  | some n =>
    cases he : n.isEndOfWord with
    | false => simp [he]
    | true =>
      cases how : n.originalWord with
      | none => simp [he, how]
      | some w0 =>
        simp only [he, how, if_true]
        constructor
        · intro hp
          refine ⟨n, rfl, he, ?_, ?_⟩
          · rw [how]
            cases pair with
            | mk p1 p2 =>
              simp only [Option.some.injEq, Prod.mk.injEq] at hp
              simp [hp.1]
          · cases pair with
            | mk p1 p2 =>
              simp only [Option.some.injEq, Prod.mk.injEq] at hp
              simp [hp.2]
        · intro ⟨n2, hn2, he2, hw2, hf2⟩
          have : n2 = n := by
            have h3 : some n = some n2 := hn2.symm ▸ rfl
            simpa using h3.symm
          subst this
          rw [how] at hw2
          cases pair with
          | mk p1 p2 =>
            simp only [Option.some.injEq] at hw2
            simp [hw2, hf2]

/-- C3: when a word (identified by its case-folded form) is inserted
several times, the stored payload at its node is the pair from the
first insertion whose frequency reached the maximum: the stored
frequency is the maximum of the offered frequencies, every earlier
offer in the subsequence is strictly smaller, and the stored spelling
is that insertion's original-case spelling. -/
theorem claim_C3 (ws : List (List Nat × Int)) (w : List Nat)
    (hws : ∀ wf ∈ ws, wf.1 ≠ [] ∧ isValidWord wf.1 = true)
    (hw : isValidWord w = true)
    (hocc : insertionsOf ws w ≠ []) :
    ∃ k, k < (insertionsOf ws w).length ∧
      termInfoAt (insertAll ws) (pathOf w)
        = some ((insertionsOf ws w).getD k default) ∧
      (∀ j, j < (insertionsOf ws w).length →
        ((insertionsOf ws w).getD j default).2
          ≤ ((insertionsOf ws w).getD k default).2) ∧
      (∀ j, j < k →
        ((insertionsOf ws w).getD j default).2
          < ((insertionsOf ws w).getD k default).2) := by
  have hfeq : insertionsOf ws w
      = ws.filter (fun wf => decide (pathOf wf.1 = pathOf w)) := by
    unfold insertionsOf
    apply List.filter_congr
    intro x hx
    have hxval := (hws x hx).2
    apply decide_eq_decide.mpr
    constructor
    · intro h
      simp only [pathOf, h]
    · intro h
      exact pathOf_inj hxval hw h
  have hterm := (insertAll_spec ws hws).2.1 (pathOf w)
  rw [← hfeq] at hterm
  obtain ⟨k, hk, hm, hmax, hstrict⟩ := mergeList_spec (insertionsOf ws w) hocc
  exact ⟨k, hk, by rw [hterm, hm], hmax, hstrict⟩

/-- Concrete insertions used to witness C3: the same case-folded word
with frequencies 3, 5, 5 interleaved with another word. -/
def exC3 : List (List Nat × Int) :=
  [(bytesOf "Hello", 3), (bytesOf "world", 1), (bytesOf "HELLO", 5), (bytesOf "hello", 5)]

/-- Witness for C3 at a concrete insertion sequence. -/
theorem claim_C3_witness :
    (∀ wf ∈ exC3, wf.1 ≠ [] ∧ isValidWord wf.1 = true) ∧
    isValidWord (bytesOf "hello") = true ∧
    insertionsOf exC3 (bytesOf "hello") ≠ [] ∧
    ∃ k, k < (insertionsOf exC3 (bytesOf "hello")).length ∧
      termInfoAt (insertAll exC3) (pathOf (bytesOf "hello"))
        = some ((insertionsOf exC3 (bytesOf "hello")).getD k default) ∧
      (∀ j, j < (insertionsOf exC3 (bytesOf "hello")).length →
        ((insertionsOf exC3 (bytesOf "hello")).getD j default).2
          ≤ ((insertionsOf exC3 (bytesOf "hello")).getD k default).2) ∧
      (∀ j, j < k →
        ((insertionsOf exC3 (bytesOf "hello")).getD j default).2
          < ((insertionsOf exC3 (bytesOf "hello")).getD k default).2) :=
  ⟨by decide, by decide, by decide,
    claim_C3 exC3 (bytesOf "hello") (by decide) (by decide) (by decide)⟩

/-- The spelling stored at any terminal node case-folds to the letters
of its path. -/
theorem terminal_word_spec (ws : List (List Nat × Int))
    (hws : ∀ wf ∈ ws, wf.1 ≠ [] ∧ isValidWord wf.1 = true) :
    ∀ p n, subtrieAt (insertAll ws) p = some n → n.isEndOfWord = true →
      ∃ cw, n.originalWord = some cw ∧ strtolower cw = p.map (fun i => i + 97) := by
    obtain ⟨hOK, hterm, _⟩ := insertAll_spec ws hws
    intro p n hp he
    have hword := ((hOK p n hp).2).1 he
    cases how : n.originalWord with
    | none => exact absurd how hword
    | some cw =>
      refine ⟨cw, rfl, ?_⟩
      have hsome : termInfoAt (insertAll ws) p = some (cw, n.frequency) :=
        termInfoAt_eq_some.mpr ⟨n, hp, he, by simpa using how, rfl⟩
      rw [hterm p] at hsome
      have hne : ws.filter (fun wf => decide (pathOf wf.1 = p)) ≠ [] := by
        intro hcon
        rw [hcon] at hsome
        simp [mergeList] at hsome
      obtain ⟨k, hk, hm, _, _⟩ :=
        mergeList_spec (ws.filter (fun wf => decide (pathOf wf.1 = p))) hne
      rw [hm] at hsome
      have hmem : (ws.filter (fun wf => decide (pathOf wf.1 = p))).getD k default
          ∈ ws.filter (fun wf => decide (pathOf wf.1 = p)) := by
        rw [List.getD_eq_getElem _ _ hk]
        exact List.getElem_mem hk
      have hfprop := List.of_mem_filter hmem
      simp only [decide_eq_true_eq] at hfprop
      have hmem2 := List.mem_of_mem_filter hmem
      have hval : isValidWord ((ws.filter (fun wf => decide (pathOf wf.1 = p))).getD k default).1 = true :=
        (hws _ hmem2).2
      have hcw : ((ws.filter (fun wf => decide (pathOf wf.1 = p))).getD k default).1 = cw := by
        have h5 : some ((ws.filter (fun wf => decide (pathOf wf.1 = p))).getD k default).1
            = some cw := by
          have := congrArg (fun o => Option.map Prod.fst o) hsome
          simpa using this
        simpa using h5
      rw [← hcw, ← pathOf_map_add hval, hfprop]

/-- A terminal node exists at a path exactly when some inserted word
case-folds to that path. -/
theorem terminal_iff_inserted (ws : List (List Nat × Int))
    (hws : ∀ wf ∈ ws, wf.1 ≠ [] ∧ isValidWord wf.1 = true) :
    ∀ p, (∃ n, subtrieAt (insertAll ws) p = some n ∧ n.isEndOfWord = true) ↔
      ∃ wf ∈ ws, pathOf wf.1 = p := by
    obtain ⟨hOK, hterm, _⟩ := insertAll_spec ws hws
    intro p
    constructor
    · intro ⟨n, hp, he⟩
      have hword := ((hOK p n hp).2).1 he
      cases how : n.originalWord with
      | none => exact absurd how hword
      | some cw =>
        have hsome : termInfoAt (insertAll ws) p = some (cw, n.frequency) :=
          termInfoAt_eq_some.mpr ⟨n, hp, he, by simpa using how, rfl⟩
        rw [hterm p] at hsome
        have hne : ws.filter (fun wf => decide (pathOf wf.1 = p)) ≠ [] := by
          intro hcon
          rw [hcon] at hsome
          simp [mergeList] at hsome
        obtain ⟨x, hx⟩ := List.exists_mem_of_ne_nil _ hne
        refine ⟨x, List.mem_of_mem_filter hx, ?_⟩
        have := List.of_mem_filter hx
        simpa using this
    · intro ⟨wf, hwf, hpath⟩
      have hmem : wf ∈ ws.filter (fun x => decide (pathOf x.1 = p)) :=
        List.mem_filter.mpr ⟨hwf, by simpa using hpath⟩
      have hne : ws.filter (fun x => decide (pathOf x.1 = p)) ≠ [] :=
        List.ne_nil_of_mem hmem
      obtain ⟨k, hk, hm, _, _⟩ :=
        mergeList_spec (ws.filter (fun x => decide (pathOf x.1 = p))) hne
      have hsome : termInfoAt (insertAll ws) p
          = some ((ws.filter (fun x => decide (pathOf x.1 = p))).getD k default) := by
        rw [hterm p, hm]
      obtain ⟨n, hn, he, _, _⟩ := termInfoAt_eq_some.mp hsome
      exact ⟨n, hn, he⟩

/-- C8: in every store built by inserting nonempty all-letter words,
the case-folded spelling stored at a terminal node spells exactly the
letters of the path from the root to that node, and a terminal node
exists at a path exactly when some inserted word case-folds to that
path — so distinct case-folded words correspond one to one to terminal
nodes. -/
theorem claim_C8 (ws : List (List Nat × Int))
    (hws : ∀ wf ∈ ws, wf.1 ≠ [] ∧ isValidWord wf.1 = true) :
    (∀ p n, subtrieAt (insertAll ws) p = some n → n.isEndOfWord = true →
      ∃ cw, n.originalWord = some cw ∧ strtolower cw = p.map (fun i => i + 97)) ∧
    (∀ p, (∃ n, subtrieAt (insertAll ws) p = some n ∧ n.isEndOfWord = true) ↔
      ∃ wf ∈ ws, pathOf wf.1 = p) :=
  ⟨terminal_word_spec ws hws, terminal_iff_inserted ws hws⟩

/-- Witness for C8 at a concrete store. -/
theorem claim_C8_witness :
    (∀ wf ∈ exC3, wf.1 ≠ [] ∧ isValidWord wf.1 = true) ∧
    ((∀ p n, subtrieAt (insertAll exC3) p = some n → n.isEndOfWord = true →
      ∃ cw, n.originalWord = some cw ∧ strtolower cw = p.map (fun i => i + 97)) ∧
    (∀ p, (∃ n, subtrieAt (insertAll exC3) p = some n ∧ n.isEndOfWord = true) ↔
      ∃ wf ∈ exC3, pathOf wf.1 = p)) :=
  ⟨by decide, claim_C8 exC3 (by decide)⟩

/-! ## Traversals (source embedding)

The depth-first walks of the source (`collectSuggestions`,
`collectAllWords`) visit the child slots in index order.  Each is a
mutual pair: one function for a node, one for a child-slot list.  On a
reachable store every end-of-word node carries a word (`NodesOK`); a
marked node without a word, which the C source would pass as `NULL`,
is skipped. -/

mutual
/-- `collectSuggestions` from the source: offer every stored word of
the subtree with distance 0. -/
def collectSuggestions : TrieNode → List Suggestion → List Suggestion
  | .mk cs e ow f, acc =>
    collectSuggestionsChildren cs
      (if e then
        match ow with
        | some w0 => addSuggestion acc w0 0 f
        | none => acc
       else acc)
def collectSuggestionsChildren :
    List (Option TrieNode) → List Suggestion → List Suggestion
  | [], acc => acc
  | none :: rest, acc => collectSuggestionsChildren rest acc
  | some c :: rest, acc => collectSuggestionsChildren rest (collectSuggestions c acc)
end

mutual
/-- `collectAllWords` from the source: append every stored spelling in
depth-first child order, capped at `MAX_WORDS` entries. -/
def collectAllWords : TrieNode → List (List Nat) → List (List Nat)
  | .mk cs e ow _, dict =>
    collectAllWordsChildren cs
      (if e then
        match ow with
        | some w0 => if dict.length < MAX_WORDS then dict ++ [w0] else dict
        | none => dict
       else dict)
def collectAllWordsChildren :
    List (Option TrieNode) → List (List Nat) → List (List Nat)
  | [], dict => dict
  | none :: rest, dict => collectAllWordsChildren rest dict
  | some c :: rest, dict => collectAllWordsChildren rest (collectAllWords c dict)
end

/-- The prefix search of the source (`searchWordsByPrefix`; that name is
not usable in this development): walk the lowercased input, fail the
moment a child is missing, otherwise collect the subtree, sort, and
fail when nothing was collected. -/
def searchWords (root : TrieNode) (pre : List Nat) : Option (List Suggestion) :=
  match subtrieAt root (pathOf pre) with
  | none => none
  | some node =>
    let sorted := List.mergeSort (collectSuggestions node []) suggLE
    if sorted.length = 0 then none else some sorted

/-- `suggestSimilarWords` from the source: score every dictionary word
against the lowercased input, offer those within distance 2 with
frequency 0, sort. -/
def suggestSimilarWords (input : List Nat) (dict : List (List Nat)) :
    List Suggestion :=
  if dict.length = 0 then []
  else
    List.mergeSort
      (dict.foldl
        (fun acc dw =>
          let d := levenshteinDistance (strtolower input) (strtolower dw)
          if d ≤ MAX_LEVENSHTEIN_DISTANCE then addSuggestion acc dw d 0 else acc)
        [])
      suggLE

theorem sizeOf_lt_of_mem_children {t : TrieNode} {cs : List (Option TrieNode)}
    {e : Bool} {w : Option (List Nat)} {f : Int}
    (h : some t ∈ cs) : sizeOf t < sizeOf (TrieNode.mk cs e w f) := by
  have h1 : sizeOf (some t) < sizeOf cs := List.sizeOf_lt_of_mem h
  simp only [TrieNode.mk.sizeOf_spec] at *
  simp only [Option.some.sizeOf_spec] at h1
  omega

/-- Induction over the trie along child membership. -/
theorem trieInduction (motive : TrieNode → Prop)
    (h : ∀ cs e w f, (∀ t, some t ∈ cs → motive t) → motive (TrieNode.mk cs e w f)) :
    ∀ t, motive t := by
  have main : ∀ n t, sizeOf t ≤ n → motive t := by
    intro n
    induction n using Nat.strong_induction_on with
    | _ n ih =>
      intro t hle
      match t with
      | .mk cs e w f =>
        refine h cs e w f fun c hc => ?_
        exact ih (sizeOf c) (lt_of_lt_of_le (sizeOf_lt_of_mem_children hc) hle) c le_rfl
  exact fun t => main (sizeOf t) t le_rfl

mutual
/-- The stream of records the subtree traversal offers, in traversal
order (a proof-side description of `collectSuggestions`). -/
def offersOf : TrieNode → List Suggestion
  | .mk cs e ow f =>
    (if e then
      match ow with
      | some w0 => [⟨w0, 0, f⟩]
      | none => []
     else []) ++ offersOfChildren cs
def offersOfChildren : List (Option TrieNode) → List Suggestion
  | [] => []
  | none :: rest => offersOfChildren rest
  | some c :: rest => offersOf c ++ offersOfChildren rest
end

/-- One offer into the ranker. -/
def offerStep (a : List Suggestion) (s : Suggestion) : List Suggestion :=
  addSuggestion a s.word s.distance s.frequency

theorem addSuggestion_mem {l : List Suggestion} {w : List Nat} {d : Nat} {f : Int}
    {x : Suggestion} (h : x ∈ addSuggestion l w d f) : x ∈ l ∨ x = ⟨w, d, f⟩ := by
  unfold addSuggestion at h
  split at h
  · rcases List.mem_append.mp h with h1 | h1
    · exact Or.inl h1
    · exact Or.inr (by simpa using h1)
  · match l, h with
    | [], h => simp at h
    | s0 :: rest, h =>
      simp only at h
      split at h
      · rcases List.mem_or_eq_of_mem_set h with h1 | h1
        · exact Or.inl h1
        · exact Or.inr h1
      · exact Or.inl h

theorem addSuggestion_length {l : List Suggestion} {w : List Nat} {d : Nat} {f : Int} :
    (addSuggestion l w d f).length
      = if l.length < MAX_SUGGESTIONS then l.length + 1 else l.length := by
  unfold addSuggestion
  split
  · simp
  · match l with
    | [] => simp
    | s0 :: rest =>
      simp only
      split
      · simp
      · simp

theorem foldl_offerStep_mem {l acc : List Suggestion} {x : Suggestion}
    (h : x ∈ l.foldl offerStep acc) : x ∈ acc ∨ x ∈ l := by
  induction l generalizing acc with
  | nil => exact Or.inl h
  | cons s rest ih =>
    rcases ih h with h1 | h1
    · rcases addSuggestion_mem h1 with h2 | h2
      · exact Or.inl h2
      · exact Or.inr (by simp [h2])
    · exact Or.inr (by simp [h1])

theorem foldl_offerStep_length_le {l acc : List Suggestion}
    (h : acc.length ≤ MAX_SUGGESTIONS) :
    (l.foldl offerStep acc).length ≤ MAX_SUGGESTIONS := by
  induction l generalizing acc with
  | nil => exact h
  | cons s rest ih =>
    apply ih
    rw [offerStep, addSuggestion_length]
    simp only [MAX_SUGGESTIONS] at *
    split <;> omega

theorem foldl_offerStep_length_ge {l acc : List Suggestion} :
    acc.length ≤ (l.foldl offerStep acc).length := by
  induction l generalizing acc with
  | nil => exact le_refl _
  | cons s rest ih =>
    refine le_trans ?_ ih
    rw [offerStep, addSuggestion_length]
    split <;> omega

theorem foldl_offerStep_ne_nil {l acc : List Suggestion} (h : l ≠ []) :
    1 ≤ (l.foldl offerStep acc).length := by
  match l with
  | [] => exact absurd rfl h
  | s :: rest =>
    simp only [List.foldl_cons]
    refine le_trans ?_ foldl_offerStep_length_ge
    rw [offerStep, addSuggestion_length]
    simp only [MAX_SUGGESTIONS]
    split <;> omega

/-- `collectSuggestions` is the fold of the offers over the ranker. -/
theorem collectSuggestions_eq_foldl :
    ∀ t acc, collectSuggestions t acc = (offersOf t).foldl offerStep acc := by
  intro t
  induction t using trieInduction with
  | _ cs e ow f ih =>
    have hch : ∀ (cs2 : List (Option TrieNode)),
        (∀ c, some c ∈ cs2 → ∀ a, collectSuggestions c a = (offersOf c).foldl offerStep a) →
        ∀ a, collectSuggestionsChildren cs2 a = (offersOfChildren cs2).foldl offerStep a := by
      intro cs2
      induction cs2 with
      | nil => intro _ a; rfl
      | cons oc rest ihr =>
        intro hmem a
        cases oc with
        | none =>
          simp only [collectSuggestionsChildren, offersOfChildren]
          exact ihr (fun c hc => hmem c (List.mem_cons_of_mem _ hc)) a
        | some c =>
          simp only [collectSuggestionsChildren, offersOfChildren, List.foldl_append]
          rw [hmem c (by simp)]
          exact ihr (fun c2 hc2 => hmem c2 (List.mem_cons_of_mem _ hc2)) _
    intro acc
    simp only [collectSuggestions, offersOf, List.foldl_append]
    rw [hch cs ih]
    congr 1
    cases e with
    | false => simp
    | true =>
      cases ow with
      | none => simp
      | some w0 => simp [offerStep, addSuggestion]

theorem getD_eq_some_mem {cs : List (Option TrieNode)} {i : Nat} {c : TrieNode}
    (h : cs.getD i none = some c) : some c ∈ cs := by
  rcases Nat.lt_or_ge i cs.length with hi | hi
  · rw [List.getD_eq_getElem _ _ hi] at h
    exact h ▸ List.getElem_mem hi
  · rw [List.getD_eq_default _ _ hi] at h
    exact absurd h (by simp)

theorem mem_getD_exists {cs : List (Option TrieNode)} {c : TrieNode}
    (h : some c ∈ cs) : ∃ i, i < cs.length ∧ cs.getD i none = some c := by
  obtain ⟨i, hi, hget⟩ := List.getElem_of_mem h
  exact ⟨i, hi, by rw [List.getD_eq_getElem _ _ hi, hget]⟩

theorem subtrieAt_append (p : List Nat) :
    ∀ (t : TrieNode) (q : List Nat),
      subtrieAt t (p ++ q) =
        match subtrieAt t p with
        | none => none
        | some m => subtrieAt m q := by
  induction p with
  | nil => intro t q; rfl
  | cons i p' ih =>
    intro t q
    rw [List.cons_append, subtrieAt_cons, subtrieAt_cons]
    cases hgc : getChild t i with
    | none => rfl
    | some c => exact ih c q

theorem mem_offersOfChildren_of {cs : List (Option TrieNode)} {c : TrieNode}
    {x : Suggestion} (hc : some c ∈ cs) (hx : x ∈ offersOf c) :
    x ∈ offersOfChildren cs := by
  induction cs with
  | nil => simp at hc
  | cons oc rest ih =>
    rcases List.mem_cons.mp hc with h1 | h1
    · subst h1
      simp only [offersOfChildren]
      exact List.mem_append.mpr (Or.inl hx)
    · cases oc with
      | none => simpa [offersOfChildren] using ih h1
      | some c2 =>
        simp only [offersOfChildren]
        exact List.mem_append.mpr (Or.inr (ih h1))

theorem exists_of_mem_offersOfChildren {cs : List (Option TrieNode)} {x : Suggestion}
    (h : x ∈ offersOfChildren cs) : ∃ c, some c ∈ cs ∧ x ∈ offersOf c := by
  induction cs with
  | nil => simp [offersOfChildren] at h
  | cons oc rest ih =>
    cases oc with
    | none =>
      obtain ⟨c, hc, hx⟩ := ih (by simpa [offersOfChildren] using h)
      exact ⟨c, List.mem_cons_of_mem _ hc, hx⟩
    | some c2 =>
      rcases List.mem_append.mp (by simpa [offersOfChildren] using h) with h1 | h1
      · exact ⟨c2, by simp, h1⟩
      · obtain ⟨c, hc, hx⟩ := ih h1
        exact ⟨c, List.mem_cons_of_mem _ hc, hx⟩

/-- The offers of a subtree are exactly the payloads of its terminal
nodes, with distance 0. -/
theorem mem_offersOf_iff :
    ∀ (t : TrieNode) (x : Suggestion),
      x ∈ offersOf t ↔
      ∃ q n, subtrieAt t q = some n ∧ n.isEndOfWord = true ∧
        n.originalWord = some x.word ∧ x.distance = 0 ∧ x.frequency = n.frequency := by
  intro t
  induction t using trieInduction with
  | _ cs e ow f ih =>
    intro x
    constructor
    · intro hx
      simp only [offersOf] at hx
      rcases List.mem_append.mp hx with h1 | h1
      · match e, ow, h1 with
        | true, some w0, h1 =>
          have hx2 : x = ⟨w0, 0, f⟩ := by simpa using h1
          subst hx2
          exact ⟨[], .mk cs true (some w0) f, rfl, rfl, rfl, rfl, rfl⟩
        | true, none, h1 => simp at h1
        | false, _, h1 => simp at h1
      · obtain ⟨c, hc, hx2⟩ := exists_of_mem_offersOfChildren h1
        obtain ⟨q, n, hq, he, how, hd, hf⟩ := (ih c hc x).mp hx2
        obtain ⟨i, hi, hget⟩ := mem_getD_exists hc
        refine ⟨i :: q, n, ?_, he, how, hd, hf⟩
        rw [subtrieAt_cons]
        simp only [getChild_mk, hget]
        exact hq
    · intro ⟨q, n, hq, he, how, hd, hf⟩
      match q with
      | [] =>
        have hn : n = .mk cs e ow f := by simpa [subtrieAt] using hq.symm
        subst hn
        simp only [TrieNode.isEndOfWord] at he
        simp only [TrieNode.originalWord] at how
        simp only [TrieNode.frequency] at hf
        subst he
        subst how
        have hx : x = ⟨x.word, 0, f⟩ := by
          cases x with
          | mk xw xd xf =>
            simp only at hd hf ⊢
            simp [hd, hf]
        rw [hx]
        simp [offersOf]
      | i :: q' =>
        rw [subtrieAt_cons] at hq
        simp only [getChild_mk] at hq
        cases hget : cs.getD i none with
        | none => rw [hget] at hq; simp at hq
        | some c =>
          rw [hget] at hq
          have hmem := getD_eq_some_mem hget
          have hx2 : x ∈ offersOf c :=
            (ih c hmem x).mpr ⟨q', n, hq, he, how, hd, hf⟩
          simp only [offersOf]
          exact List.mem_append.mpr (Or.inr (mem_offersOfChildren_of hmem hx2))

theorem suggLE_trans : ∀ (a b c : Suggestion), suggLE a b → suggLE b c → suggLE a c := by
  intro a b c h1 h2
  simp only [suggLE, compareSuggestions, decide_eq_true_eq] at *
  split_ifs at * <;> omega

theorem suggLE_total : ∀ (a b : Suggestion), suggLE a b || suggLE b a := by
  intro a b
  simp only [suggLE, compareSuggestions, Bool.or_eq_true, decide_eq_true_eq]
  split_ifs <;> omega

theorem suggLE_imp {a b : Suggestion} (h : suggLE a b = true) :
    a.distance < b.distance ∨ (a.distance = b.distance ∧ b.frequency ≤ a.frequency) := by
  simp only [suggLE, compareSuggestions, decide_eq_true_eq] at h
  split_ifs at h <;> omega

/-- C5: a successful prefix lookup returns at most 10 suggestions;
every returned word case-insensitively extends the queried input; every
returned record carries distance 0; and the returned sequence is
non-increasing in frequency. -/
theorem claim_C5 (ws : List (List Nat × Int)) (pre : List Nat) (out : List Suggestion)
    (hws : ∀ wf ∈ ws, wf.1 ≠ [] ∧ isValidWord wf.1 = true)
    (hpre : isValidWord pre = true)
    (hout : searchWords (insertAll ws) pre = some out) :
    out.length ≤ MAX_SUGGESTIONS ∧
    (∀ s ∈ out, ∃ q, strtolower s.word = strtolower pre ++ q) ∧
    (∀ s ∈ out, s.distance = 0) ∧
    List.Pairwise (fun a b => b.frequency ≤ a.frequency) out := by
  unfold searchWords at hout
  cases hsub : subtrieAt (insertAll ws) (pathOf pre) with
  | none => rw [hsub] at hout; simp at hout
  | some node =>
    rw [hsub] at hout
    simp only at hout
    split at hout
    · simp at hout
    · have hout2 : out = List.mergeSort (collectSuggestions node []) suggLE := by
        simpa using hout.symm
      have hmemchar : ∀ s ∈ out, s ∈ offersOf node := by
        intro s hs
        rw [hout2] at hs
        have hs2 : s ∈ collectSuggestions node [] := List.mem_mergeSort.mp hs
        rw [collectSuggestions_eq_foldl] at hs2
        rcases foldl_offerStep_mem hs2 with h1 | h1
        · simp at h1
        · exact h1
      refine ⟨?_, ?_, ?_, ?_⟩
      · rw [hout2, List.length_mergeSort, collectSuggestions_eq_foldl]
        exact foldl_offerStep_length_le (by simp [MAX_SUGGESTIONS])
      · intro s hs
        obtain ⟨q, n, hq, he, how, hd, hf⟩ :=
          (mem_offersOf_iff node s).mp (hmemchar s hs)
        have hsub2 : subtrieAt (insertAll ws) (pathOf pre ++ q) = some n := by
          rw [subtrieAt_append, hsub]
          exact hq
        obtain ⟨cw, hcw, hlow⟩ := terminal_word_spec ws hws _ n hsub2 he
        have hcw2 : cw = s.word := by
          rw [hcw] at how
          simpa using how
        refine ⟨q.map (fun i => i + 97), ?_⟩
        rw [← hcw2, hlow, List.map_append, pathOf_map_add hpre]
      · intro s hs
        obtain ⟨q, n, hq, he, how, hd, hf⟩ :=
          (mem_offersOf_iff node s).mp (hmemchar s hs)
        exact hd
      · have hsorted : List.Pairwise (fun a b => suggLE a b = true) out := by
          rw [hout2]
          exact List.sorted_mergeSort suggLE_trans suggLE_total _
        refine List.Pairwise.imp_of_mem ?_ hsorted
        intro a b ha hb hab
        obtain ⟨_, _, _, _, _, hda, _⟩ := (mem_offersOf_iff node a).mp (hmemchar a ha)
        obtain ⟨_, _, _, _, _, hdb, _⟩ := (mem_offersOf_iff node b).mp (hmemchar b hb)
        rcases suggLE_imp hab with h1 | h1
        · omega
        · exact h1.2

/-- Scenario-A store used to witness C5. -/
def exC5 : List (List Nat × Int) :=
  [(bytesOf "apple", 5), (bytesOf "app", 3), (bytesOf "apt", 1)]

/-- The output the model computes for Scenario A. -/
def exC5out : List Suggestion :=
  [⟨bytesOf "apple", 0, 5⟩, ⟨bytesOf "app", 0, 3⟩, ⟨bytesOf "apt", 0, 1⟩]

unseal List.merge List.mergeSort in
/-- Witness for C5: Scenario A evaluated concretely. -/
theorem claim_C5_witness :
    searchWords (insertAll exC5) (bytesOf "ap") = some exC5out ∧
    (exC5out.length ≤ MAX_SUGGESTIONS ∧
     (∀ s ∈ exC5out, ∃ q, strtolower s.word = strtolower (bytesOf "ap") ++ q) ∧
     (∀ s ∈ exC5out, s.distance = 0) ∧
     List.Pairwise (fun a b => b.frequency ≤ a.frequency) exC5out) :=
  ⟨by decide,
   claim_C5 exC5 (bytesOf "ap") exC5out (by decide) (by decide) (by decide)⟩

theorem suggestSimilar_fold_mem {input : List Nat} :
    ∀ (dict : List (List Nat)) (acc : List Suggestion) (x : Suggestion),
      x ∈ dict.foldl
        (fun acc dw =>
          let d := levenshteinDistance (strtolower input) (strtolower dw)
          if d ≤ MAX_LEVENSHTEIN_DISTANCE then addSuggestion acc dw d 0 else acc) acc →
      x ∈ acc ∨ ∃ dw ∈ dict,
        x = ⟨dw, levenshteinDistance (strtolower input) (strtolower dw), 0⟩ ∧
        levenshteinDistance (strtolower input) (strtolower dw)
          ≤ MAX_LEVENSHTEIN_DISTANCE := by
  intro dict
  induction dict with
  | nil =>
    intro acc x h
    exact Or.inl h
  | cons dw rest ih =>
    intro acc x h
    simp only [List.foldl_cons] at h
    rcases ih _ x h with h1 | h1
    · by_cases hd : levenshteinDistance (strtolower input) (strtolower dw)
          ≤ MAX_LEVENSHTEIN_DISTANCE
      · simp only [if_pos hd] at h1
        rcases addSuggestion_mem h1 with h2 | h2
        · exact Or.inl h2
        · exact Or.inr ⟨dw, by simp, h2, hd⟩
      · simp only [if_neg hd] at h1
        exact Or.inl h1
    · obtain ⟨dw2, hdw2, hx, hd⟩ := h1
      exact Or.inr ⟨dw2, List.mem_cons_of_mem _ hdw2, hx, hd⟩

/-- C6: fuzzy correction never returns a word whose case-folded edit
distance from the case-folded input exceeds 2; every returned record
carries frequency 0 and its true distance; and the returned sequence is
non-decreasing in distance, with frequency as a descending tiebreak. -/
theorem claim_C6 (input : List Nat) (dict : List (List Nat)) :
    (∀ s ∈ suggestSimilarWords input dict,
      levenshteinDistance (strtolower input) (strtolower s.word)
        ≤ MAX_LEVENSHTEIN_DISTANCE ∧
      s.frequency = 0 ∧
      s.distance = levenshteinDistance (strtolower input) (strtolower s.word)) ∧
    List.Pairwise
      (fun a b => a.distance < b.distance ∨
        (a.distance = b.distance ∧ b.frequency ≤ a.frequency))
      (suggestSimilarWords input dict) := by
  unfold suggestSimilarWords
  split
  · simp
  · constructor
    · intro s hs
      have hs2 := List.mem_mergeSort.mp hs
      rcases suggestSimilar_fold_mem dict [] s hs2 with h1 | h1
      · simp at h1
      · obtain ⟨dw, _, hx, hd⟩ := h1
        subst hx
        exact ⟨hd, rfl, rfl⟩
    · refine List.Pairwise.imp (fun hab => suggLE_imp hab) ?_
      exact List.sorted_mergeSort suggLE_trans suggLE_total _

/-- Scenario-B dictionary. -/
def exC6dict : List (List Nat) := [bytesOf "apple", bytesOf "app", bytesOf "apt"]

unseal List.merge List.mergeSort in
/-- Witness for C6: Scenario B evaluated concretely, plus the claim at
that input. -/
theorem claim_C6_witness :
    suggestSimilarWords (bytesOf "aple") exC6dict
      = [⟨bytesOf "apple", 1, 0⟩, ⟨bytesOf "app", 2, 0⟩, ⟨bytesOf "apt", 2, 0⟩] ∧
    ((∀ s ∈ suggestSimilarWords (bytesOf "aple") exC6dict,
      levenshteinDistance (strtolower (bytesOf "aple")) (strtolower s.word)
        ≤ MAX_LEVENSHTEIN_DISTANCE ∧
      s.frequency = 0 ∧
      s.distance = levenshteinDistance (strtolower (bytesOf "aple")) (strtolower s.word)) ∧
    List.Pairwise
      (fun a b => a.distance < b.distance ∨
        (a.distance = b.distance ∧ b.frequency ≤ a.frequency))
      (suggestSimilarWords (bytesOf "aple") exC6dict)) :=
  ⟨by decide, claim_C6 (bytesOf "aple") exC6dict⟩

/-! ## `listAll` (menu option 2) and the sort comparator

The source collects all stored spellings depth first
(`collectAllWords`) and then calls `qsort` with `strcmp` cast to the
comparator type.  `qsort` hands the comparator pointers to the array
cells, i.e. values of type pointer-to-pointer-to-char, while `strcmp`
reads its arguments as strings; the cast therefore makes the
comparator read the pointer representations themselves, not the word
bytes — undefined behaviour whose outcome depends on allocation
addresses.  The byte order `strcmp` was meant to give (the comment in
the source says "Sort words alphabetically") is `strcmpLE`. -/

/-- Byte-lexicographic order of C `strcmp`. -/
def strcmpLE : List Nat → List Nat → Bool
  | [], _ => true
  | _ :: _, [] => false
  | x :: xs, y :: ys =>
    if x < y then true else if y < x then false else strcmpLE xs ys

/-- Scenario-E store. -/
def exC1 : List (List Nat × Int) :=
  [(bytesOf "Banana", 1), (bytesOf "apple", 1), (bytesOf "Cherry", 1)]

set_option maxRecDepth 4000 in
set_option maxHeartbeats 1000000 in
/-- C1 evaluated at the Scenario-E store: the enumeration handed to
`qsort` is in case-folded path order ("apple", "Banana", "Cherry"),
which is not ascending byte order ("Banana" < "apple" in bytes), so
the contractual output order can only come from the comparator — and
the comparator the source installs never reads the word bytes. -/
theorem claim_C1_code_eval :
    collectAllWords (insertAll exC1) []
      = [bytesOf "apple", bytesOf "Banana", bytesOf "Cherry"] ∧
    strcmpLE (bytesOf "Banana") (bytesOf "apple") = true ∧
    strcmpLE (bytesOf "apple") (bytesOf "Banana") = false ∧
    ¬ List.Pairwise (fun a b => strcmpLE a b = true)
        (collectAllWords (insertAll exC1) []) :=
  ⟨by decide, by decide, by decide, by decide⟩

/-! ## Query functions are read-only (state-passing embedding)

Each query of the source receives node pointers and could in principle
write through them.  To state that none does, the traversals are
re-rendered in state-passing style: every node the C code touches is
rebuilt from what the traversal returns, so a write anywhere would
surface as a changed tree.  The theorems below say each query returns
the tree it was given, unchanged, and computes the same result as the
pure rendering. -/

mutual
def collectSuggestionsST : TrieNode → List Suggestion → (List Suggestion × TrieNode)
  | .mk cs e ow f, acc =>
    let acc1 := if e then
        (match ow with
          | some w0 => addSuggestion acc w0 0 f
          | none => acc)
      else acc
    let r := collectSuggestionsChildrenST cs acc1
    (r.1, .mk r.2 e ow f)
def collectSuggestionsChildrenST :
    List (Option TrieNode) → List Suggestion → (List Suggestion × List (Option TrieNode))
  | [], acc => (acc, [])
  | none :: rest, acc =>
    let r := collectSuggestionsChildrenST rest acc
    (r.1, none :: r.2)
  | some c :: rest, acc =>
    let rc := collectSuggestionsST c acc
    let rr := collectSuggestionsChildrenST rest rc.1
    (rr.1, some rc.2 :: rr.2)
end

mutual
def collectAllWordsST : TrieNode → List (List Nat) → (List (List Nat) × TrieNode)
  | .mk cs e ow f, dict =>
    let dict1 := if e then
        (match ow with
          | some w0 => if dict.length < MAX_WORDS then dict ++ [w0] else dict
          | none => dict)
      else dict
    let r := collectAllWordsChildrenST cs dict1
    (r.1, .mk r.2 e ow f)
def collectAllWordsChildrenST :
    List (Option TrieNode) → List (List Nat) → (List (List Nat) × List (Option TrieNode))
  | [], dict => (dict, [])
  | none :: rest, dict =>
    let r := collectAllWordsChildrenST rest dict
    (r.1, none :: r.2)
  | some c :: rest, dict =>
    let rc := collectAllWordsST c dict
    let rr := collectAllWordsChildrenST rest rc.1
    (rr.1, some rc.2 :: rr.2)
end

/-- The walk of the prefix search, rebuilding the path it descends. -/
def searchGoST : TrieNode → List Nat → (Option (List Suggestion) × TrieNode)
  | t, [] =>
    let r := collectSuggestionsST t []
    let sorted := List.mergeSort r.1 suggLE
    (if sorted.length = 0 then none else some sorted, r.2)
  | .mk cs e ow f, i :: p =>
    match cs.getD i none with
    | none => (none, .mk cs e ow f)
    | some c =>
      let r := searchGoST c p
      (r.1, .mk (cs.set i (some r.2)) e ow f)

def searchWordsST (root : TrieNode) (pre : List Nat) :
    Option (List Suggestion) × TrieNode :=
  searchGoST root (pathOf pre)

/-- `correctSpelling`: snapshot the store, then fuzzy-match against the
snapshot. -/
def correctSpellingST (t : TrieNode) (input : List Nat) :
    List Suggestion × TrieNode :=
  let snap := collectAllWordsST t []
  (suggestSimilarWords input snap.1, snap.2)

theorem collectSuggestionsST_spec :
    ∀ (t : TrieNode) (acc : List Suggestion),
      collectSuggestionsST t acc = (collectSuggestions t acc, t) := by
  intro t
  induction t using trieInduction with
  | _ cs e ow f ih =>
    have hch : ∀ (cs2 : List (Option TrieNode)),
        (∀ c, some c ∈ cs2 → ∀ a, collectSuggestionsST c a = (collectSuggestions c a, c)) →
        ∀ a, collectSuggestionsChildrenST cs2 a
          = (collectSuggestionsChildren cs2 a, cs2) := by
      intro cs2
      induction cs2 with
      | nil => intro _ a; rfl
      | cons oc rest ihr =>
        intro hmem a
        cases oc with
        | none =>
          simp only [collectSuggestionsChildrenST, collectSuggestionsChildren]
          rw [ihr (fun c hc => hmem c (List.mem_cons_of_mem _ hc)) a]
        | some c =>
          simp only [collectSuggestionsChildrenST, collectSuggestionsChildren]
          rw [hmem c (by simp)]
          rw [ihr (fun c2 hc2 => hmem c2 (List.mem_cons_of_mem _ hc2))]
    intro acc
    simp only [collectSuggestionsST, collectSuggestions]
    rw [hch cs ih]

theorem collectAllWordsST_spec :
    ∀ (t : TrieNode) (dict : List (List Nat)),
      collectAllWordsST t dict = (collectAllWords t dict, t) := by
  intro t
  induction t using trieInduction with
  | _ cs e ow f ih =>
    have hch : ∀ (cs2 : List (Option TrieNode)),
        (∀ c, some c ∈ cs2 → ∀ a, collectAllWordsST c a = (collectAllWords c a, c)) →
        ∀ a, collectAllWordsChildrenST cs2 a = (collectAllWordsChildren cs2 a, cs2) := by
      intro cs2
      induction cs2 with
      | nil => intro _ a; rfl
      | cons oc rest ihr =>
        intro hmem a
        cases oc with
        | none =>
          simp only [collectAllWordsChildrenST, collectAllWordsChildren]
          rw [ihr (fun c hc => hmem c (List.mem_cons_of_mem _ hc)) a]
        | some c =>
          simp only [collectAllWordsChildrenST, collectAllWordsChildren]
          rw [hmem c (by simp)]
          rw [ihr (fun c2 hc2 => hmem c2 (List.mem_cons_of_mem _ hc2))]
    intro dict
    simp only [collectAllWordsST, collectAllWords]
    rw [hch cs ih]

theorem set_self_of_getD {cs : List (Option TrieNode)} {i : Nat} {c : TrieNode}
    (h : cs.getD i none = some c) : cs.set i (some c) = cs := by
  induction cs generalizing i with
  | nil => rfl
  | cons hd tl ih =>
    match i with
    | 0 =>
      have hhd : hd = some c := by simpa [List.getD] using h
      simp [hhd]
    | i + 1 =>
      have h2 : tl.getD i none = some c := by simpa [List.getD] using h
      simp [ih h2]

theorem searchGoST_spec :
    ∀ (p : List Nat) (t : TrieNode),
      searchGoST t p =
        ((match subtrieAt t p with
          | none => none
          | some node =>
            let sorted := List.mergeSort (collectSuggestions node []) suggLE
            if sorted.length = 0 then none else some sorted), t) := by
  intro p
  induction p with
  | nil =>
    intro t
    simp only [searchGoST, subtrieAt]
    rw [collectSuggestionsST_spec]
  | cons i p' ih =>
    intro t
    match t with
    | .mk cs e ow f =>
      rw [subtrieAt_cons]
      simp only [getChild_mk]
      cases hgc : cs.getD i none with
      | none => simp only [searchGoST, hgc]
      | some c =>
        simp only [searchGoST, hgc]
        rw [ih c, set_self_of_getD hgc]

/-- C9: on stores built by insertions of nonempty all-letter words, a
prefix lookup reports no result (the `NotFound` outcome) exactly when no
stored word case-insensitively starts with the queried input; and the
lookup is non-fatal and read-only — in state-passing form
(`searchWordsST`) it returns the store unchanged. -/
theorem claim_C9 (ws : List (List Nat × Int)) (pre : List Nat)
    (hws : ∀ wf ∈ ws, wf.1 ≠ [] ∧ isValidWord wf.1 = true)
    (hpre_ne : pre ≠ []) (hpre : isValidWord pre = true) :
    (searchWords (insertAll ws) pre = none ↔
      ¬ ∃ wf ∈ ws, ∃ q, strtolower wf.1 = strtolower pre ++ q) ∧
    (searchWordsST (insertAll ws) pre).2 = insertAll ws := by
  refine ⟨?_, by unfold searchWordsST; rw [searchGoST_spec]⟩
  have hpne : pathOf pre ≠ [] := by
    intro hcon
    have hlen : (pathOf pre).length = 0 := by rw [hcon]; rfl
    simp only [pathOf, strtolower, List.length_map] at hlen
    exact hpre_ne (List.eq_nil_of_length_eq_zero hlen)
  obtain ⟨hOK, hterm, hsome⟩ := insertAll_spec ws hws
  have hiff := hsome (pathOf pre) hpne
  have hstep : searchWords (insertAll ws) pre = none ↔
      subtrieAt (insertAll ws) (pathOf pre) = none := by
    constructor
    · intro h
      cases hsub : subtrieAt (insertAll ws) (pathOf pre) with
      | none => rfl
      | some node =>
        exfalso
        have hnode : (subtrieAt (insertAll ws) (pathOf pre)).isSome = true := by
          simp [hsub]
        obtain ⟨wf, hwf, q, hq⟩ := hiff.mp hnode
        obtain ⟨n, hn, he⟩ :=
          (terminal_iff_inserted ws hws (pathOf wf.1)).mpr ⟨wf, hwf, rfl⟩
        have hword := ((hOK (pathOf wf.1) n hn).2).1 he
        cases how : n.originalWord with
        | none => exact hword how
        | some cw =>
          have hsubn : subtrieAt node q = some n := by
            have h2 : subtrieAt (insertAll ws) (pathOf pre ++ q) = some n := by
              rw [← hq]
              exact hn
            rw [subtrieAt_append, hsub] at h2
            exact h2
          have hxmem : (⟨cw, 0, n.frequency⟩ : Suggestion) ∈ offersOf node :=
            (mem_offersOf_iff node _).mpr ⟨q, n, hsubn, he, how, rfl, rfl⟩
          have hlen : 1 ≤ (collectSuggestions node []).length := by
            rw [collectSuggestions_eq_foldl]
            exact foldl_offerStep_ne_nil (List.ne_nil_of_mem hxmem)
          unfold searchWords at h
          rw [hsub] at h
          simp only at h
          split at h
          · rename_i hcond
            rw [List.length_mergeSort] at hcond
            omega
          · simp at h
    · intro h
      unfold searchWords
      rw [h]
  rw [hstep]
  constructor
  · intro h hex
    obtain ⟨wf, hwf, q2, hq2⟩ := hex
    have hpath : pathOf wf.1 = pathOf pre ++ q2.map (fun c => c - 97) := by
      simp only [pathOf, hq2, List.map_append]
    have hns : (subtrieAt (insertAll ws) (pathOf pre)).isSome = true :=
      hiff.mpr ⟨wf, hwf, _, hpath⟩
    rw [h] at hns
    simp at hns
  · intro h
    cases hsub : subtrieAt (insertAll ws) (pathOf pre) with
    | none => rfl
    | some node =>
      exfalso
      have hns : (subtrieAt (insertAll ws) (pathOf pre)).isSome = true := by simp [hsub]
      obtain ⟨wf, hwf, q, hq⟩ := hiff.mp hns
      refine h ⟨wf, hwf, q.map (fun i => i + 97), ?_⟩
      rw [← pathOf_map_add (hws wf hwf).2, hq, List.map_append, pathOf_map_add hpre]

unseal List.merge List.mergeSort in
/-- Witness for C9: a miss on the Scenario-A store. -/
theorem claim_C9_witness :
    (∀ wf ∈ exC5, wf.1 ≠ [] ∧ isValidWord wf.1 = true) ∧ bytesOf "zz" ≠ [] ∧
    isValidWord (bytesOf "zz") = true ∧
    ((searchWords (insertAll exC5) (bytesOf "zz") = none ↔
      ¬ ∃ wf ∈ exC5, ∃ q, strtolower wf.1 = strtolower (bytesOf "zz") ++ q) ∧
     (searchWordsST (insertAll exC5) (bytesOf "zz")).2 = insertAll exC5) :=
  ⟨by decide, by decide, by decide,
   claim_C9 exC5 (bytesOf "zz") (by decide) (by decide) (by decide)⟩

/-- C10: the query paths of the store are read-only.  Each query,
rendered in state-passing style so that any write to a node would
surface in the returned tree, returns exactly the tree it was given:
subtree collection (`collectSuggestions`), the dictionary snapshot
(`collectAllWords`, also the body of `listAll`), the prefix search, and
fuzzy correction over a fresh snapshot.  Only `insertWord` produces a
new tree. -/
theorem claim_C10 :
    (∀ (t : TrieNode) (acc : List Suggestion),
      (collectSuggestionsST t acc).2 = t ∧
      (collectSuggestionsST t acc).1 = collectSuggestions t acc) ∧
    (∀ (t : TrieNode) (dict : List (List Nat)),
      (collectAllWordsST t dict).2 = t ∧
      (collectAllWordsST t dict).1 = collectAllWords t dict) ∧
    (∀ (t : TrieNode) (pre : List Nat),
      (searchWordsST t pre).2 = t ∧
      (searchWordsST t pre).1 = searchWords t pre) ∧
    (∀ (t : TrieNode) (input : List Nat),
      (correctSpellingST t input).2 = t ∧
      (correctSpellingST t input).1 = suggestSimilarWords input (collectAllWords t [])) := by
  refine ⟨?_, ?_, ?_, ?_⟩
  · intro t acc
    rw [collectSuggestionsST_spec]
    exact ⟨rfl, rfl⟩
  · intro t dict
    rw [collectAllWordsST_spec]
    exact ⟨rfl, rfl⟩
  · intro t pre
    unfold searchWordsST
    rw [searchGoST_spec]
    exact ⟨rfl, rfl⟩
  · intro t input
    unfold correctSpellingST
    rw [collectAllWordsST_spec]
    exact ⟨rfl, rfl⟩
